import Mathlib

/-!
# Verification of the `strided` library (strided slices)

Shallow embedding of `src/base.rs`, `src/imm.rs` and `src/mut_.rs`.

Modelling conventions:

* A raw strided slice `base::Stride<'a, T>` is the triple of its fields
  `data` (the pointer value, a `usize` address), `len` (element count) and
  `stride` (byte distance between consecutive elements).  Addresses are
  modelled as `Nat`.
* `mem::size_of::<T>()` is a parameter `sz : Nat` threaded to every
  operation whose source calls `Stride::new_raw` (which asserts
  `size_of::<T>() != 0`).
* Pointer stepping (`step`, which uses `<*const u8>::offset`) is exact
  address arithmetic, as Rust pointer `offset` is (it has no wrapping
  semantics); plain `usize` arithmetic wraps at `W = 2^64`, which matters
  only in the `assert!` of `iter`/`iter_mut` and in `checked_mul`, where
  the reduction modulo `W` is written explicitly.
* A Rust `panic!`/failed `assert!`/`expect` is an `Except.error` carrying
  the panic message; successful results are `Except.ok`.
* `Option` results (`get`, iterator `next`) stay `Option`.
-/

namespace Strided

/-- The number of `usize` values: `usize` arithmetic wraps at `2 ^ 64`. -/
def W : Nat := 2 ^ 64

/-- Models `base::Stride<'a, T>`: the raw pointer `data`, the element count `len`
and the byte stride `stride` (fields of the struct in `src/base.rs`). -/
structure Stride where
  data : Nat
  len : Nat
  stride : Nat
  deriving DecidableEq, Repr

/-- Models `usize::checked_mul`: `some` of the product when it fits in a `usize`,
`none` on overflow. -/
def checked_mul (a b : Nat) : Option Nat :=
  if a * b < W then some (a * b) else none

/-- Models `Stride::new_raw` (src/base.rs): asserts the element size is non-zero,
then builds the triple.  No other check is performed. -/
def Stride.new_raw (sz : Nat) (data len byte_stride : Nat) : Except String Stride :=
  if sz = 0 then .error "assertion failed: mem::size_of::<T>() != 0"
  else .ok ⟨data, len, byte_stride⟩

/-- Models `Stride::new` (src/base.rs): byte stride is `elem_stride * size_of::<T>()`. -/
def Stride.new (sz : Nat) (data len elem_stride : Nat) : Except String Stride :=
  Stride.new_raw sz data len (elem_stride * sz)

/-- Models `Stride::substrides2` (src/base.rs). -/
def Stride.substrides2 (sz : Nat) (s : Stride) : Except String (Stride × Stride) :=
  let left_len := (s.len + 1) / 2
  let right_len := s.len - left_len
  match checked_mul s.stride 2 with
  | none => .error "Stride.substrides2: stride too large"
  | some stride =>
    let left_ptr := s.data
    let right_ptr := if s.len = 0 then left_ptr else left_ptr + s.stride
    do
      let l ← Stride.new_raw sz left_ptr left_len stride
      let r ← Stride.new_raw sz right_ptr right_len stride
      pure (l, r)

/-- The state of the `Substrides` iterator (src/base.rs). -/
structure Substrides where
  x : Stride
  base_stride : Nat
  nlong : Nat
  count : Nat
  deriving DecidableEq, Repr

/-- Models `Stride::substrides` (src/base.rs): asserts `n != 0`, computes the long
length `(len + n - 1) / n`, the checked stride `n * stride`, and seeds the
partitioner state. -/
def Stride.substrides (sz : Nat) (s : Stride) (n : Nat) : Except String Substrides :=
  if n = 0 then .error "assertion failed: n != 0"
  else
    let long_len := (s.len + n - 1) / n
    match checked_mul n s.stride with
    | none => .error "Stride.substrides: stride too large"
    | some new_stride => do
      let x ← Stride.new_raw sz s.data long_len new_stride
      pure ⟨x, s.stride, s.len % n, n⟩

/-- The `Items`/`MutItems` iterator state (src/base.rs): `start` and `end`
pointers plus the byte stride.  The source field `end` is a Lean keyword,
so it is named `endp` here. -/
structure Items where
  start : Nat
  endp : Nat
  stride : Nat
  deriving DecidableEq, Repr

/-- Models `Stride::iter` / `iter_mut` (src/base.rs): asserts that
`data + len * stride` (wrapping `usize` arithmetic) does not wrap below
`data`, then builds the iterator whose `end` is one stride past the last
element. -/
def Stride.iter (s : Stride) : Except String Items :=
  if s.data ≤ (s.data + s.len * s.stride) % W then
    .ok ⟨s.data, s.data + s.stride * s.len, s.stride⟩
  else .error "assertion failed: self.data as usize + self.len * self.stride >= self.data as usize"

/-- Models `Stride::get` (src/base.rs): the address of element `n`, or `None` when
`n` is out of range.  (`get_mut` is the same computation returning a
mutable reference.) -/
def Stride.get (s : Stride) (n : Nat) : Option Nat :=
  if n < s.len then some (s.data + n * s.stride) else none

/-- Models `Stride::get_mut` (src/base.rs): identical address computation to `get`. -/
def Stride.get_mut (s : Stride) (n : Nat) : Option Nat :=
  if n < s.len then some (s.data + n * s.stride) else none

/-- Models `Stride::slice` (src/base.rs): asserts `from <= to && to <= len`, then
rebuilds at `data + from * stride` with length `to - from`, same stride.
(`fr`/`hi` stand for the source's `from`/`to`, both Lean keywords.) -/
def Stride.slice (sz : Nat) (s : Stride) (fr hi : Nat) : Except String Stride :=
  if fr ≤ hi ∧ hi ≤ s.len then
    Stride.new_raw sz (s.data + fr * s.stride) (hi - fr) s.stride
  else .error "assertion failed: from <= to && to <= self.len()"

/-- Models `Stride::slice_from` (src/base.rs): `slice(from, len)`. -/
def Stride.slice_from (sz : Nat) (s : Stride) (fr : Nat) : Except String Stride :=
  Stride.slice sz s fr s.len

/-- Models `Stride::slice_to` (src/base.rs): `slice(0, to)`. -/
def Stride.slice_to (sz : Nat) (s : Stride) (hi : Nat) : Except String Stride :=
  Stride.slice sz s 0 hi

/-- Models `Stride::split_at` (src/base.rs): asserts `idx <= len`, then builds the
two halves directly with `new_raw`. -/
def Stride.split_at (sz : Nat) (s : Stride) (idx : Nat) : Except String (Stride × Stride) :=
  if idx ≤ s.len then do
    let l ← Stride.new_raw sz s.data idx s.stride
    let r ← Stride.new_raw sz (s.data + idx * s.stride) (s.len - idx) s.stride
    pure (l, r)
  else .error "assertion failed: idx <= self.len()"

/-- Models `imm::Stride::index` (src/imm.rs): `get(n).expect(...)`, a fatal abort
on an out-of-range index. -/
def Stride.index (s : Stride) (n : Nat) : Except String Nat :=
  match s.get n with
  | some a => .ok a
  | none => .error "Stride.index: index out of bounds"

/-- The sequence of element addresses a view denotes: logical position `i`
lives at byte offset `i * stride` from `data`. -/
def Stride.toList (s : Stride) : List Nat :=
  (List.range s.len).map (fun i => s.data + i * s.stride)

/-- The visible element sequence of a view, given the memory contents
`mem` (a map from address to stored value). -/
def Stride.elems (mem : Nat → α) (s : Stride) : List α :=
  (s.toList).map mem

/-! ## Iterator stepping (`Items::next`, `next_back`, `size_hint`) -/

/-- Models `Items::next` (src/base.rs): while `start < end`, return the element at
`start` and advance `start` by one stride. -/
def Items.next (it : Items) : Option (Nat × Items) :=
  if it.start < it.endp then
    some (it.start, { it with start := it.start + it.stride })
  else none

/-- Models `Items::next_back` (src/base.rs): while `start < end`, retreat `end` by
one stride and return the element now at `end`. -/
def Items.next_back (it : Items) : Option (Nat × Items) :=
  if it.start < it.endp then
    some (it.endp - it.stride, { it with endp := it.endp - it.stride })
  else none

/-- Models `Items::size_hint` (src/base.rs): exactly `(end - start) / stride`,
as both the lower and upper bound. -/
def Items.size_hint (it : Items) : Nat × Option Nat :=
  ((it.endp - it.start) / it.stride, some ((it.endp - it.start) / it.stride))

/-- Run the iterator forward, collecting the yielded addresses; `fuel`
bounds the number of steps (the Rust loop runs until `next` is `None`;
any `fuel ≥` the remaining count gives the full run). -/
def Items.fwd : Nat → Items → List Nat
  | 0, _ => []
  | fuel + 1, it =>
    match it.next with
    | none => []
    | some (x, it') => x :: Items.fwd fuel it'

/-- Run the iterator backward (`next_back`), collecting yielded addresses. -/
def Items.bwd : Nat → Items → List Nat
  | 0, _ => []
  | fuel + 1, it =>
    match it.next_back with
    | none => []
    | some (x, it') => x :: Items.bwd fuel it'

/-- Apply a sequence of iterator operations (`true` = `next`,
`false` = `next_back`), keeping the final state.  An exhausted call leaves
the state unchanged, as in the source. -/
def Items.applyOps : List Bool → Items → Items
  | [], it => it
  | b :: ops, it =>
    Items.applyOps ops
      (if b then
        match it.next with
        | some p => p.2
        | none => it
      else
        match it.next_back with
        | some p => p.2
        | none => it)

/-- The full forward run of a view's iterator, with fuel `len` (exact for
positive strides).  This is the element traversal used by the `PartialEq`,
`Ord` and `Debug` impls in src/base.rs, which all call `self.iter()`. -/
def Stride.iterRun (s : Stride) : List Nat :=
  Items.fwd s.len ⟨s.data, s.data + s.stride * s.len, s.stride⟩

/-! ## The substride partitioner (`Substrides::next`) -/

/-- Models `Substrides::next` (src/base.rs): return `None` once `count` hits `0`;
otherwise emit the template view `x`, then (a) if `nlong > 0` decrement it
and, at `0`, shorten `x` by one element, and (b) if `x` still has elements,
advance its base by the original stride `base_stride`. -/
def Substrides.next (s : Substrides) : Option (Stride × Substrides) :=
  if s.count = 0 then none
  else
    let count := s.count - 1
    let ret := s.x
    let xn : Stride × Nat :=
      if 0 < s.nlong then
        let nl := s.nlong - 1
        (if nl = 0 then { s.x with len := s.x.len - 1 } else s.x, nl)
      else (s.x, s.nlong)
    let x2 := if 0 < xn.1.len then { xn.1 with data := xn.1.data + s.base_stride } else xn.1
    some (ret, ⟨x2, s.base_stride, xn.2, count⟩)

/-- Models `Substrides::size_hint` (src/base.rs): exactly `count`. -/
def Substrides.size_hint (s : Substrides) : Nat × Option Nat :=
  (s.count, some s.count)

/-- Collect the views the partitioner yields, with a step-count fuel (the
iterator terminates after exactly `count` productions, so fuel `count`
gives the full run). -/
def Substrides.runFuel : Nat → Substrides → List Stride
  | 0, _ => []
  | fuel + 1, s =>
    match s.next with
    | none => []
    | some (v, s') => v :: Substrides.runFuel fuel s'

/-- The full run of the partitioner. -/
def Substrides.run (s : Substrides) : List Stride :=
  Substrides.runFuel s.count s

/-- Advance the partitioner by one `next` call (no-op when exhausted). -/
def Substrides.step1 (s : Substrides) : Substrides :=
  match s.next with
  | some p => p.2
  | none => s

/-- The partitioner state after `k` calls to `next`. -/
def Substrides.afterK : Nat → Substrides → Substrides
  | 0, s => s
  | k + 1, s => Substrides.afterK k s.step1

/-! ## Round-robin interleaving -/

/-- Two-way interleave: alternate elements starting with the left list
(the recombination order of `substrides2`). -/
def interleave2 : List α → List α → List α
  | [], ys => ys
  | x :: xs, ys => x :: interleave2 ys xs
  termination_by xs ys => xs.length + ys.length
  decreasing_by simp; omega

/-- Round-robin interleave of `n` lists by partition index: round `j`
takes the `j`-th element of each list that still has one, in list order. -/
def roundRobin (ls : List (List α)) : List α :=
  (List.range (ls.foldr (fun l m => max l.length m) 0)).flatMap
    (fun j => ls.filterMap (fun l => l[j]?))

/-! ## Basic facts about the address sequence -/

theorem Stride.length_toList (s : Stride) : s.toList.length = s.len := by
  simp [Stride.toList]

theorem Stride.getElem?_toList (s : Stride) (i : Nat) :
    s.toList[i]? = if i < s.len then some (s.data + i * s.stride) else none := by
  unfold Stride.toList
  rw [List.getElem?_map]
  split
  · rw [List.getElem?_range (by assumption)]
    rfl
  · rw [List.getElem?_eq_none (by simp; omega)]
    rfl

/-! ## C4: bounds-checked element access -/

/-- C4: for `i < len`, `get i` (and `get_mut i`) is the element at byte
offset `i * stride` from the view's base, i.e. logical position `i` of the
view's address sequence; for `i ≥ len` both return `none` rather than
failing, while the fatal accessors (`index`, out-of-range `slice`,
out-of-range `split_at`) abort. -/
theorem get_spec (sz : Nat) (s : Stride) (i : Nat) :
    Stride.get s i = s.toList[i]?
    ∧ Stride.get_mut s i = s.toList[i]?
    ∧ (s.len ≤ i →
        Stride.get s i = none
        ∧ Stride.get_mut s i = none
        ∧ Stride.index s i = .error "Stride.index: index out of bounds")
    ∧ (∀ fr hi, s.len < hi → (Stride.slice sz s fr hi).isOk = false)
    ∧ (∀ idx, s.len < idx → (Stride.split_at sz s idx).isOk = false) := by
  refine ⟨?_, ?_, ?_, ?_, ?_⟩
  · rw [Stride.getElem?_toList]; rfl
  · rw [Stride.getElem?_toList]; rfl
  · intro h
    refine ⟨?_, ?_, ?_⟩
    · simp [Stride.get, Nat.not_lt_of_le h]
    · simp [Stride.get_mut, Nat.not_lt_of_le h]
    · simp [Stride.index, Stride.get, Nat.not_lt_of_le h]
  · intro fr hi h
    simp only [Stride.slice]
    rw [if_neg (by omega)]
    rfl
  · intro idx h
    simp only [Stride.split_at]
    rw [if_neg (by omega)]
    rfl

/-- Witness for C4 at a concrete view: `[0,6)` with stride `2`, element
size `2`, accessed in and out of range. -/
theorem get_spec_witness :
    Stride.get ⟨100, 3, 2⟩ 2 = some 104
    ∧ Stride.get ⟨100, 3, 2⟩ 5 = none
    ∧ Stride.index ⟨100, 3, 2⟩ 5 = .error "Stride.index: index out of bounds"
    ∧ (Stride.slice 2 ⟨100, 3, 2⟩ 0 4).isOk = false := by
  have h := get_spec 2 ⟨100, 3, 2⟩ 5
  have h2 := get_spec 2 ⟨100, 3, 2⟩ 2
  exact ⟨by rw [h2.1]; rfl,
         (h.2.2.1 (by decide)).1,
         (h.2.2.1 (by decide)).2.2,
         h.2.2.2.1 0 4 (by decide)⟩

/-! ## C6: `split_at` agrees with the slicing pair -/

/-- C6: for `idx ≤ len`, `split_at idx` returns exactly the pair
`(slice 0 idx, slice idx len)` — equivalently `(slice_to idx,
slice_from idx)` — as descriptor triples, and `split_at` aborts when
`idx > len`. -/
theorem split_at_spec (sz : Nat) (hsz : sz ≠ 0) (s : Stride) (idx : Nat) :
    (idx ≤ s.len →
      ∃ l r, Stride.split_at sz s idx = .ok (l, r)
        ∧ Stride.slice sz s 0 idx = .ok l
        ∧ Stride.slice sz s idx s.len = .ok r
        ∧ Stride.slice_to sz s idx = .ok l
        ∧ Stride.slice_from sz s idx = .ok r)
    ∧ (s.len < idx → (Stride.split_at sz s idx).isOk = false) := by
  constructor
  · intro h
    refine ⟨⟨s.data, idx, s.stride⟩, ⟨s.data + idx * s.stride, s.len - idx, s.stride⟩,
            ?_, ?_, ?_, ?_, ?_⟩
    · simp only [Stride.split_at, if_pos h, Stride.new_raw, if_neg hsz]
      rfl
    · simp [Stride.slice, h, Stride.new_raw, hsz]
    · simp [Stride.slice, h, Stride.new_raw, hsz]
    · simp [Stride.slice_to, Stride.slice, h, Stride.new_raw, hsz]
    · simp [Stride.slice_from, Stride.slice, h, Stride.new_raw, hsz]
  · intro h
    simp only [Stride.split_at]
    rw [if_neg (by omega)]
    rfl

/-- Witness for C6: splitting a five-element view at index `2`. -/
theorem split_at_spec_witness :
    ∃ l r, Stride.split_at 1 ⟨0, 5, 1⟩ 2 = .ok (l, r)
      ∧ Stride.slice 1 ⟨0, 5, 1⟩ 0 2 = .ok l
      ∧ Stride.slice 1 ⟨0, 5, 1⟩ 2 5 = .ok r
      ∧ Stride.slice_to 1 ⟨0, 5, 1⟩ 2 = .ok l
      ∧ Stride.slice_from 1 ⟨0, 5, 1⟩ 2 = .ok r :=
  (split_at_spec 1 (by decide) ⟨0, 5, 1⟩ 2).1 (by decide)

/-! ## C3: where the wrapping-extent check actually happens

`Stride::new_raw` performs no wrap check (its only assertion is on the
element size); the `base + length * stride` wrap assertion sits in
`iter`/`iter_mut`.  A view whose extent wraps the address space *can* be
constructed; iterating it is what aborts. -/

/-- C3 counterexample: constructing a view whose extent
`base + len * stride = 2^64 + 1` wraps the address space succeeds —
no construction-time check rejects it. -/
theorem wrap_check_construction_cex :
    Stride.new_raw 1 (W - 1) 2 1 = .ok ⟨W - 1, 2, 1⟩
    ∧ ((W - 1) + 2 * 1) % W < W - 1 := by
  constructor
  · rfl
  · show ((2 ^ 64 - 1) + 2 * 1) % 2 ^ 64 < 2 ^ 64 - 1
    norm_num

/-- C3 (amended): view construction performs no wrap check — `new_raw`
succeeds for every triple whenever the element size is non-zero — and the
`base + length * stride` non-wrapping condition is instead checked when an
iterator is created: `iter` succeeds exactly when the wrapping-arithmetic
sum `data + len * stride` does not wrap below `data`. -/
theorem wrap_check_at_iter :
    (∀ sz d L S, sz ≠ 0 → Stride.new_raw sz d L S = .ok ⟨d, L, S⟩)
    ∧ (∀ s : Stride, (Stride.iter s).isOk = true ↔ s.data ≤ (s.data + s.len * s.stride) % W) := by
  constructor
  · intro sz d L S hsz
    simp [Stride.new_raw, hsz]
  · intro s
    by_cases h : s.data ≤ (s.data + s.len * s.stride) % W
    · rw [Stride.iter, if_pos h]
      exact iff_of_true rfl h
    · rw [Stride.iter, if_neg h]
      exact iff_of_false Bool.false_ne_true h

/-- Witness for C3 (amended): a concrete non-wrapping view is constructed
and its iterator is accepted. -/
theorem wrap_check_at_iter_witness :
    Stride.new_raw 1 0 5 1 = .ok ⟨0, 5, 1⟩ ∧ (Stride.iter ⟨0, 5, 1⟩).isOk = true :=
  ⟨wrap_check_at_iter.1 1 0 5 1 (by decide),
   (wrap_check_at_iter.2 ⟨0, 5, 1⟩).mpr (Nat.zero_le _)⟩

/-! ## C7: the catalogue of fatal abort conditions -/

/-- C7 counterexample: a fatal abort caused by a condition outside the
claim's list — `iter` on a view whose extent wraps the address space
aborts, although the view involves no out-of-range bound, no zero
partition count, no zero-sized element and no stride-multiplication
overflow (indeed the very same view was constructed without complaint). -/
theorem abort_conditions_cex :
    (Stride.iter ⟨W - 1, 2, 1⟩).isOk = false
    ∧ Stride.new_raw 1 (W - 1) 2 1 = .ok ⟨W - 1, 2, 1⟩ := by
  constructor
  · have h : ¬ ((W - 1 : Nat) ≤ ((W - 1) + 2 * 1) % W) := by
      show ¬ ((2 ^ 64 - 1 : Nat) ≤ ((2 ^ 64 - 1) + 2 * 1) % 2 ^ 64)
      norm_num
    rw [Stride.iter]
    rw [show (⟨W - 1, 2, 1⟩ : Stride).data = W - 1 from rfl,
        show (⟨W - 1, 2, 1⟩ : Stride).len = 2 from rfl,
        show (⟨W - 1, 2, 1⟩ : Stride).stride = 1 from rfl,
        if_neg h]
    rfl
  · rfl

/-- C7 (amended): with a non-zero element size fixed, the fatal abort
conditions are exactly: out-of-range `slice` bounds (`from > to` or
`to > len`), `split_at` past the length, indexed access past the length,
partition count `0` or stride-multiplication overflow in `substrides`,
stride-doubling overflow in `substrides2`, zero element size at any
construction, **and** the wrapping-extent assertion when creating an
iterator.  `get` is total: it reports out of range as `none`, never as an
abort. -/
theorem abort_conditions (sz : Nat) (hsz : sz ≠ 0) (s : Stride) :
    (∀ fr hi, (Stride.slice sz s fr hi).isOk = true ↔ (fr ≤ hi ∧ hi ≤ s.len))
    ∧ (∀ idx, (Stride.split_at sz s idx).isOk = true ↔ idx ≤ s.len)
    ∧ (∀ i, (Stride.index s i).isOk = true ↔ i < s.len)
    ∧ (∀ n, (Stride.substrides sz s n).isOk = true ↔ (n ≠ 0 ∧ n * s.stride < W))
    ∧ ((Stride.substrides2 sz s).isOk = true ↔ s.stride * 2 < W)
    ∧ ((Stride.iter s).isOk = true ↔ s.data ≤ (s.data + s.len * s.stride) % W)
    ∧ (∀ sz' d L S, (Stride.new_raw sz' d L S).isOk = true ↔ sz' ≠ 0)
    ∧ (∀ i, (Stride.get s i).isSome = true ↔ i < s.len) := by
  refine ⟨?_, ?_, ?_, ?_, ?_, ?_, ?_, ?_⟩
  · intro fr hi
    by_cases h : fr ≤ hi ∧ hi ≤ s.len
    · rw [Stride.slice, if_pos h, Stride.new_raw, if_neg hsz]
      exact iff_of_true rfl h
    · rw [Stride.slice, if_neg h]
      exact iff_of_false Bool.false_ne_true h
  · intro idx
    by_cases h : idx ≤ s.len
    · rw [Stride.split_at, if_pos h]
      simp only [Stride.new_raw, if_neg hsz]
      exact iff_of_true rfl h
    · rw [Stride.split_at, if_neg h]
      exact iff_of_false Bool.false_ne_true h
  · intro i
    by_cases h : i < s.len
    · rw [Stride.index, Stride.get, if_pos h]
      exact iff_of_true rfl h
    · rw [Stride.index, Stride.get, if_neg h]
      exact iff_of_false Bool.false_ne_true h
  · intro n
    by_cases hn : n = 0
    · rw [Stride.substrides, if_pos hn]
      exact iff_of_false Bool.false_ne_true (by simp [hn])
    · by_cases hm : n * s.stride < W
      · rw [Stride.substrides, if_neg hn]
        rw [show checked_mul n s.stride = some (n * s.stride) from by rw [checked_mul, if_pos hm]]
        simp only [Stride.new_raw, if_neg hsz]
        exact iff_of_true rfl ⟨hn, hm⟩
      · rw [Stride.substrides, if_neg hn]
        rw [show checked_mul n s.stride = none from by rw [checked_mul, if_neg hm]]
        exact iff_of_false Bool.false_ne_true (by simp [hm])
  · by_cases hm : s.stride * 2 < W
    · rw [Stride.substrides2,
          show checked_mul s.stride 2 = some (s.stride * 2) from by rw [checked_mul, if_pos hm]]
      simp only [Stride.new_raw, if_neg hsz]
      exact iff_of_true rfl hm
    · rw [Stride.substrides2,
          show checked_mul s.stride 2 = none from by rw [checked_mul, if_neg hm]]
      exact iff_of_false Bool.false_ne_true hm
  · by_cases h : s.data ≤ (s.data + s.len * s.stride) % W
    · rw [Stride.iter, if_pos h]
      exact iff_of_true rfl h
    · rw [Stride.iter, if_neg h]
      exact iff_of_false Bool.false_ne_true h
  · intro sz' d L S
    by_cases h : sz' = 0
    · rw [Stride.new_raw, if_pos h]
      exact iff_of_false Bool.false_ne_true (by simp [h])
    · rw [Stride.new_raw, if_neg h]
      exact iff_of_true rfl h
  · intro i
    by_cases h : i < s.len
    · rw [Stride.get, if_pos h]
      exact iff_of_true rfl h
    · rw [Stride.get, if_neg h]
      exact iff_of_false Bool.false_ne_true h

/-- Witness for C7 (amended): the abort catalogue evaluated on a concrete
five-element view with stride 1 and element size 1. -/
theorem abort_conditions_witness :
    ((Stride.slice 1 ⟨0, 5, 1⟩ 2 7).isOk = true ↔ ((2 : Nat) ≤ 7 ∧ (7 : Nat) ≤ 5))
    ∧ ((Stride.split_at 1 ⟨0, 5, 1⟩ 5).isOk = true ↔ (5 : Nat) ≤ 5)
    ∧ ((Stride.index ⟨0, 5, 1⟩ 5).isOk = true ↔ (5 : Nat) < 5)
    ∧ ((Stride.substrides 1 ⟨0, 5, 1⟩ 0).isOk = true ↔ ((0 : Nat) ≠ 0 ∧ 0 * 1 < W))
    ∧ ((Stride.get ⟨0, 5, 1⟩ 4).isSome = true ↔ (4 : Nat) < 5) := by
  have h := abort_conditions 1 (by decide) ⟨0, 5, 1⟩
  exact ⟨h.1 2 7, h.2.1 5, h.2.2.1 5, h.2.2.2.1 0, h.2.2.2.2.2.2.2 4⟩

/-! ## C5: the element iterator -/

theorem Items.fwd_run (t : Nat) (ht : 0 < t) :
    ∀ (m fuel a : Nat), m ≤ fuel →
      Items.fwd fuel ⟨a, a + m * t, t⟩ = (List.range m).map (fun i => a + i * t) := by
  intro m
  induction m with
  | zero =>
    intro fuel a _
    match fuel with
    | 0 => rfl
    | fuel + 1 => simp [Items.fwd, Items.next]
  | succ m ih =>
    intro fuel a hf
    match fuel with
    | fuel + 1 =>
      have hlt : a < a + (m + 1) * t := by
        have h0 : 0 < (m + 1) * t := Nat.mul_pos (by omega) ht
        omega
      simp only [Items.fwd, Items.next, if_pos hlt]
      rw [show a + (m + 1) * t = (a + t) + m * t from by ring]
      rw [ih fuel (a + t) (by omega)]
      rw [List.range_succ_eq_map, List.map_cons, List.map_map]
      refine congrArg₂ _ (by omega) (List.map_congr_left ?_)
      intro i _
      show a + t + i * t = a + (i + 1) * t
      ring

theorem Items.bwd_run (t : Nat) (ht : 0 < t) :
    ∀ (m fuel a : Nat), m ≤ fuel →
      Items.bwd fuel ⟨a, a + m * t, t⟩ = ((List.range m).map (fun i => a + i * t)).reverse := by
  intro m
  induction m with
  | zero =>
    intro fuel a _
    match fuel with
    | 0 => rfl
    | fuel + 1 => simp [Items.bwd, Items.next_back]
  | succ m ih =>
    intro fuel a hf
    match fuel with
    | fuel + 1 =>
      rw [show a + (m + 1) * t = a + m * t + t from by ring]
      have hlt : a < a + m * t + t := by omega
      simp only [Items.bwd, Items.next_back, if_pos hlt]
      rw [Nat.add_sub_cancel]
      rw [ih fuel a (by omega)]
      rw [List.range_succ, List.map_append, List.reverse_append]
      simp

theorem Items.size_hint_state (a m t : Nat) (ht : 0 < t) :
    Items.size_hint ⟨a, a + m * t, t⟩ = (m, some m) := by
  simp [Items.size_hint, Nat.mul_div_cancel m ht]

theorem Items.applyOps_state (t : Nat) (ht : 0 < t) :
    ∀ (ops : List Bool) (a m : Nat),
      ∃ a' m', m' ≤ m ∧ Items.applyOps ops ⟨a, a + m * t, t⟩ = ⟨a', a' + m' * t, t⟩ := by
  intro ops
  induction ops with
  | nil => exact fun a m => ⟨a, m, le_refl _, rfl⟩
  | cons b ops ih =>
    intro a m
    match b, m with
    | true, 0 =>
      rw [show Items.applyOps (true :: ops) ⟨a, a + 0 * t, t⟩
            = Items.applyOps ops ⟨a, a + 0 * t, t⟩ from by
          simp [Items.applyOps, Items.next]]
      exact ih a 0
    | true, m + 1 =>
      have hlt : a < a + (m + 1) * t := by
        have h0 : 0 < (m + 1) * t := Nat.mul_pos (by omega) ht
        omega
      rw [show Items.applyOps (true :: ops) ⟨a, a + (m + 1) * t, t⟩
            = Items.applyOps ops ⟨a + t, a + (m + 1) * t, t⟩ from by
          simp [Items.applyOps, Items.next, hlt, ht]]
      rw [show a + (m + 1) * t = (a + t) + m * t from by ring]
      obtain ⟨a', m', hm, heq⟩ := ih (a + t) m
      exact ⟨a', m', by omega, heq⟩
    | false, 0 =>
      rw [show Items.applyOps (false :: ops) ⟨a, a + 0 * t, t⟩
            = Items.applyOps ops ⟨a, a + 0 * t, t⟩ from by
          simp [Items.applyOps, Items.next_back]]
      exact ih a 0
    | false, m + 1 =>
      rw [show a + (m + 1) * t = a + m * t + t from by ring]
      have hlt : a < a + m * t + t := by omega
      rw [show Items.applyOps (false :: ops) ⟨a, a + m * t + t, t⟩
            = Items.applyOps ops ⟨a, a + m * t, t⟩ from by
          simp [Items.applyOps, Items.next_back, hlt, ht]]
      obtain ⟨a', m', hm, heq⟩ := ih a m
      exact ⟨a', m', by omega, heq⟩

theorem Items.applyOps_all_fwd (t : Nat) (ht : 0 < t) :
    ∀ (k a m : Nat),
      ∃ a', Items.applyOps (List.replicate k true) ⟨a, a + m * t, t⟩
              = ⟨a', a' + (m - k) * t, t⟩ := by
  intro k
  induction k with
  | zero => exact fun a m => ⟨a, rfl⟩
  | succ k ih =>
    intro a m
    rw [List.replicate_succ]
    match m with
    | 0 =>
      rw [show Items.applyOps (true :: List.replicate k true) ⟨a, a + 0 * t, t⟩
            = Items.applyOps (List.replicate k true) ⟨a, a + 0 * t, t⟩ from by
          simp [Items.applyOps, Items.next]]
      obtain ⟨a', h⟩ := ih a 0
      exact ⟨a', by rw [show (0 : Nat) - (k + 1) = 0 - k from by omega]; exact h⟩
    | m + 1 =>
      have hlt : a < a + (m + 1) * t := by
        have h0 : 0 < (m + 1) * t := Nat.mul_pos (by omega) ht
        omega
      rw [show Items.applyOps (true :: List.replicate k true) ⟨a, a + (m + 1) * t, t⟩
            = Items.applyOps (List.replicate k true) ⟨a + t, a + (m + 1) * t, t⟩ from by
          simp [Items.applyOps, Items.next, hlt, ht]]
      rw [show a + (m + 1) * t = (a + t) + m * t from by ring]
      obtain ⟨a', h⟩ := ih (a + t) m
      exact ⟨a', by rw [show m + 1 - (k + 1) = m - k from by omega]; exact h⟩

theorem Items.applyOps_all_bwd (t : Nat) (ht : 0 < t) :
    ∀ (k a m : Nat),
      Items.applyOps (List.replicate k false) ⟨a, a + m * t, t⟩
        = ⟨a, a + (m - k) * t, t⟩ := by
  intro k
  induction k with
  | zero => exact fun a m => rfl
  | succ k ih =>
    intro a m
    rw [List.replicate_succ]
    match m with
    | 0 =>
      rw [show Items.applyOps (false :: List.replicate k false) ⟨a, a + 0 * t, t⟩
            = Items.applyOps (List.replicate k false) ⟨a, a + 0 * t, t⟩ from by
          simp [Items.applyOps, Items.next_back]]
      rw [show (0 : Nat) - (k + 1) = 0 - k from by omega]
      exact ih a 0
    | m + 1 =>
      rw [show a + (m + 1) * t = a + m * t + t from by ring]
      have hlt : a < a + m * t + t := by omega
      rw [show Items.applyOps (false :: List.replicate k false) ⟨a, a + m * t + t, t⟩
            = Items.applyOps (List.replicate k false) ⟨a, a + m * t, t⟩ from by
          simp [Items.applyOps, Items.next_back, hlt, ht]]
      rw [show m + 1 - (k + 1) = m - k from by omega]
      exact ih a m

theorem Items.next_none_zero (a t : Nat) : Items.next ⟨a, a + 0 * t, t⟩ = none := by
  simp [Items.next]

theorem Items.next_back_none_zero (a t : Nat) : Items.next_back ⟨a, a + 0 * t, t⟩ = none := by
  simp [Items.next_back]

/-- C5: with a positive stride and a non-wrapping extent, the iterator of a
view of length `L` yields exactly the `L` element addresses in index
order; backward iteration yields them reversed; the size hint after any
sequence of forward/backward steps is exactly the number of elements a
full further forward run still yields (reported as both bounds); and a
fully consumed iterator (from either end) yields nothing in either
direction. -/
theorem iter_spec (d L S : Nat) (hS : 0 < S) (hw : d + L * S < W) :
    Stride.iter ⟨d, L, S⟩ = .ok ⟨d, d + S * L, S⟩
    ∧ Items.fwd L ⟨d, d + S * L, S⟩ = Stride.toList ⟨d, L, S⟩
    ∧ Items.bwd L ⟨d, d + S * L, S⟩ = (Stride.toList ⟨d, L, S⟩).reverse
    ∧ (∀ ops : List Bool,
        Items.size_hint (Items.applyOps ops ⟨d, d + S * L, S⟩)
          = ((Items.fwd L (Items.applyOps ops ⟨d, d + S * L, S⟩)).length,
              some (Items.fwd L (Items.applyOps ops ⟨d, d + S * L, S⟩)).length))
    ∧ Items.next (Items.applyOps (List.replicate L true) ⟨d, d + S * L, S⟩) = none
    ∧ Items.next_back (Items.applyOps (List.replicate L true) ⟨d, d + S * L, S⟩) = none
    ∧ Items.next (Items.applyOps (List.replicate L false) ⟨d, d + S * L, S⟩) = none
    ∧ Items.next_back (Items.applyOps (List.replicate L false) ⟨d, d + S * L, S⟩) = none := by
  have hcomm : d + S * L = d + L * S := by ring
  refine ⟨?_, ?_, ?_, ?_, ?_, ?_, ?_, ?_⟩
  · have hc : (⟨d, L, S⟩ : Stride).data
        ≤ ((⟨d, L, S⟩ : Stride).data + (⟨d, L, S⟩ : Stride).len * (⟨d, L, S⟩ : Stride).stride) % W := by
      show d ≤ (d + L * S) % W
      rw [Nat.mod_eq_of_lt hw]
      omega
    rw [Stride.iter, if_pos hc]
  · rw [hcomm, Items.fwd_run S hS L L d (le_refl L)]
    rfl
  · rw [hcomm, Items.bwd_run S hS L L d (le_refl L)]
    rfl
  · intro ops
    rw [hcomm]
    obtain ⟨a', m', hm, heq⟩ := Items.applyOps_state S hS ops d L
    rw [heq, Items.size_hint_state a' m' S hS, Items.fwd_run S hS m' L a' hm]
    simp
  · rw [hcomm]
    obtain ⟨a', h⟩ := Items.applyOps_all_fwd S hS L d L
    rw [h, Nat.sub_self]
    exact Items.next_none_zero a' S
  · rw [hcomm]
    obtain ⟨a', h⟩ := Items.applyOps_all_fwd S hS L d L
    rw [h, Nat.sub_self]
    exact Items.next_back_none_zero a' S
  · rw [hcomm, Items.applyOps_all_bwd S hS L d L, Nat.sub_self]
    exact Items.next_none_zero d S
  · rw [hcomm, Items.applyOps_all_bwd S hS L d L, Nat.sub_self]
    exact Items.next_back_none_zero d S

/-- Witness for C5 at a concrete view: five elements at base 10 with
byte stride 2. -/
theorem iter_spec_witness :
    Stride.iter ⟨10, 5, 2⟩ = .ok ⟨10, 10 + 2 * 5, 2⟩
    ∧ Items.fwd 5 ⟨10, 10 + 2 * 5, 2⟩ = Stride.toList ⟨10, 5, 2⟩
    ∧ Items.bwd 5 ⟨10, 10 + 2 * 5, 2⟩ = (Stride.toList ⟨10, 5, 2⟩).reverse
    ∧ Items.size_hint (Items.applyOps [true, false] ⟨10, 10 + 2 * 5, 2⟩)
        = ((Items.fwd 5 (Items.applyOps [true, false] ⟨10, 10 + 2 * 5, 2⟩)).length,
            some (Items.fwd 5 (Items.applyOps [true, false] ⟨10, 10 + 2 * 5, 2⟩)).length) := by
  have h := iter_spec 10 5 2 (by decide) (by norm_num [W])
  exact ⟨h.1, h.2.1, h.2.2.1, h.2.2.2.1 [true, false]⟩

/-! ## C2: `substrides2` -/

theorem interleave2_nil (ys : List α) : interleave2 ([] : List α) ys = ys := by
  rw [interleave2]

theorem interleave2_cons (x : α) (xs ys : List α) :
    interleave2 (x :: xs) ys = x :: interleave2 ys xs := by
  rw [interleave2]

theorem interleave2_map_aux (f : α → β) : ∀ (n : Nat) (xs ys : List α),
    xs.length + ys.length ≤ n →
    interleave2 (xs.map f) (ys.map f) = (interleave2 xs ys).map f := by
  intro n
  induction n with
  | zero =>
    intro xs ys h
    match xs, ys with
    | [], [] => simp [interleave2_nil]
    | x :: xs', _ => simp at h
    | [], y :: ys' => simp at h
  | succ n ih =>
    intro xs ys h
    match xs with
    | [] => simp [interleave2_nil]
    | x :: xs' =>
      rw [List.map_cons, interleave2_cons, interleave2_cons, List.map_cons]
      exact congrArg _ (ih ys xs' (by simp at h ⊢; omega))

theorem interleave2_map (f : α → β) (xs ys : List α) :
    interleave2 (xs.map f) (ys.map f) = (interleave2 xs ys).map f :=
  interleave2_map_aux f (xs.length + ys.length) xs ys (le_refl _)

/-- Alternating the two arithmetic subsequences of even and odd indices
(with doubled step) recovers the full arithmetic sequence. -/
theorem interleave2_strided (L : Nat) : ∀ d S : Nat,
    interleave2
      ((List.range ((L + 1) / 2)).map (fun i => d + i * (S * 2)))
      ((List.range (L - (L + 1) / 2)).map (fun i => (d + S) + i * (S * 2)))
    = (List.range L).map (fun i => d + i * S) := by
  induction L with
  | zero => intro d S; simp [interleave2_nil]
  | succ L ih =>
    intro d S
    rw [show (L + 1 + 1) / 2 = L / 2 + 1 from by omega]
    rw [show L + 1 - (L / 2 + 1) = (L + 1) / 2 from by omega]
    rw [List.range_succ_eq_map (L / 2), List.map_cons, List.map_map]
    rw [show ((fun i => d + i * (S * 2)) ∘ Nat.succ) = (fun i => (d + S + S) + i * (S * 2)) from by
        funext i; show d + (i + 1) * (S * 2) = d + S + S + i * (S * 2); ring]
    rw [show (d : Nat) + 0 * (S * 2) = d from by ring]
    rw [interleave2_cons]
    have ih' := ih (d + S) S
    rw [show L - (L + 1) / 2 = L / 2 from by omega] at ih'
    rw [ih']
    rw [List.range_succ_eq_map L, List.map_cons, List.map_map]
    rw [show (d : Nat) + 0 * S = d from by ring]
    refine congrArg _ (List.map_congr_left ?_)
    intro i _
    show d + S + i * S = d + (i + 1) * S
    ring

/-- C2: with a non-zero element size and no stride-doubling overflow,
`substrides2` on a view of length `L` and stride `S` returns views of
lengths `ceil(L/2) = (L+1)/2` and `L - (L+1)/2`, each of stride `2 * S`;
the left view starts at the original base and the right one stride `S`
past it (except `L = 0`, where it equals the left base); and alternating
the two views' element sequences, left first, recovers the original
sequence. -/
theorem substrides2_spec {α : Type} (sz : Nat) (hsz : sz ≠ 0) (d L S : Nat)
    (hmul : S * 2 < W) (mem : Nat → α) :
    ∃ l r, Stride.substrides2 sz ⟨d, L, S⟩ = .ok (l, r)
      ∧ l.len = (L + 1) / 2
      ∧ r.len = L - (L + 1) / 2
      ∧ l.stride = S * 2
      ∧ r.stride = S * 2
      ∧ l.data = d
      ∧ r.data = (if L = 0 then d else d + S)
      ∧ interleave2 l.toList r.toList = Stride.toList ⟨d, L, S⟩
      ∧ interleave2 (Stride.elems mem l) (Stride.elems mem r) = Stride.elems mem ⟨d, L, S⟩ := by
  have key : interleave2 (Stride.toList ⟨d, (L + 1) / 2, S * 2⟩)
      (Stride.toList ⟨if L = 0 then d else d + S, L - (L + 1) / 2, S * 2⟩)
      = Stride.toList ⟨d, L, S⟩ := by
    match L with
    | 0 => simp [Stride.toList, interleave2_nil]
    | L + 1 =>
      rw [if_neg (Nat.succ_ne_zero L)]
      exact interleave2_strided (L + 1) d S
  refine ⟨⟨d, (L + 1) / 2, S * 2⟩, ⟨if L = 0 then d else d + S, L - (L + 1) / 2, S * 2⟩,
          ?_, rfl, rfl, rfl, rfl, rfl, rfl, key, ?_⟩
  · rw [Stride.substrides2,
        show checked_mul (⟨d, L, S⟩ : Stride).stride 2 = some (S * 2) from by
          rw [checked_mul, if_pos hmul]]
    simp only [Stride.new_raw, if_neg hsz]
    rfl
  · calc interleave2 (Stride.elems mem ⟨d, (L + 1) / 2, S * 2⟩)
            (Stride.elems mem ⟨if L = 0 then d else d + S, L - (L + 1) / 2, S * 2⟩)
        = (interleave2 (Stride.toList ⟨d, (L + 1) / 2, S * 2⟩)
            (Stride.toList ⟨if L = 0 then d else d + S, L - (L + 1) / 2, S * 2⟩)).map mem := by
          rw [Stride.elems, Stride.elems]
          exact interleave2_map mem _ _
      _ = Stride.elems mem ⟨d, L, S⟩ := by rw [key]; rfl

/-- Witness for C2: the five-element stride-1 view at base 0 with element
size 1 (the spec scenario `[1,2,3,4,5] → ([1,3,5],[2,4])`). -/
theorem substrides2_spec_witness :
    ∃ l r, Stride.substrides2 1 ⟨0, 5, 1⟩ = .ok (l, r)
      ∧ l.len = (5 + 1) / 2
      ∧ r.len = 5 - (5 + 1) / 2
      ∧ l.stride = 1 * 2
      ∧ r.stride = 1 * 2
      ∧ l.data = 0
      ∧ r.data = (if (5 : Nat) = 0 then 0 else 0 + 1)
      ∧ interleave2 l.toList r.toList = Stride.toList ⟨0, 5, 1⟩
      ∧ interleave2 (Stride.elems (fun a => a + 100) l) (Stride.elems (fun a => a + 100) r)
          = Stride.elems (fun a => a + 100) ⟨0, 5, 1⟩ :=
  substrides2_spec 1 (by decide) 0 5 1 (by norm_num [W]) (fun a => a + 100)

/-! ## C1: the substride partitioner

Closed form of the partitioner run.  For a state `⟨⟨d, l, t⟩, S, m, c⟩`
the `k`-th produced view (`k < c`) has length `subLen l m k` (the template
length `l`, dropping to `l - 1` once the `m` long views are exhausted) and
base `d + min k (subZ l m c) * S` (the base advances by the original
stride `S` after every view produced while the template still has
elements). -/

/-- Length of the `k`-th view produced from a partitioner state with
template length `l` and `m` remaining long views. -/
def subLen (l m k : Nat) : Nat := if m = 0 ∨ k < m then l else l - 1

/-- Cap on the number of base advances for template length `l`, remaining
long count `m` and remaining production count `c`. -/
def subZ (l m c : Nat) : Nat :=
  if l = 0 then 0 else if m ≠ 0 ∧ l = 1 then m - 1 else c

theorem Substrides.next_succ (d l t S m c : Nat) :
    Substrides.next ⟨⟨d, l, t⟩, S, m, c + 1⟩
      = some (⟨d, l, t⟩,
          ⟨⟨if 0 < (if m = 1 then l - 1 else l) then d + S else d,
            if m = 1 then l - 1 else l, t⟩, S, m - 1, c⟩) := by
  match m with
  | 0 =>
    simp [Substrides.next]
    split <;> rfl
  | 1 =>
    simp [Substrides.next]
    split <;> rfl
  | m + 2 =>
    simp [Substrides.next]
    split <;> rfl

theorem subStep (l m c k S d : Nat) (hk : k < c) :
    d + min (k + 1) (subZ l m (c + 1)) * S
        = (if 0 < (if m = 1 then l - 1 else l) then d + S else d)
          + min k (subZ (if m = 1 then l - 1 else l) (m - 1) c) * S
    ∧ subLen l m (k + 1) = subLen (if m = 1 then l - 1 else l) (m - 1) k := by
  constructor
  · have hmin : min (k + 1) (subZ l m (c + 1))
        = (if 0 < (if m = 1 then l - 1 else l) then 1 else 0)
          + min k (subZ (if m = 1 then l - 1 else l) (m - 1) c) := by
      unfold subZ
      split_ifs <;> omega
    rw [hmin]
    by_cases hadv : 0 < (if m = 1 then l - 1 else l)
    · rw [if_pos hadv, if_pos hadv]
      ring
    · rw [if_neg hadv, if_neg hadv]
      ring
  · unfold subLen
    split_ifs <;> omega

theorem Substrides.runFuel_closed (c : Nat) : ∀ (d l t S m : Nat),
    Substrides.runFuel c ⟨⟨d, l, t⟩, S, m, c⟩
      = (List.range c).map
          (fun k => ⟨d + min k (subZ l m c) * S, subLen l m k, t⟩) := by
  induction c with
  | zero => intro d l t S m; rfl
  | succ c ih =>
    intro d l t S m
    have hstep : Substrides.runFuel (c + 1) ⟨⟨d, l, t⟩, S, m, c + 1⟩
        = ⟨d, l, t⟩ :: Substrides.runFuel c
            ⟨⟨if 0 < (if m = 1 then l - 1 else l) then d + S else d,
              if m = 1 then l - 1 else l, t⟩, S, m - 1, c⟩ := by
      rw [Substrides.runFuel, Substrides.next_succ]
    rw [hstep, ih]
    rw [List.range_succ_eq_map, List.map_cons, List.map_map]
    refine congrArg₂ List.cons ?_ ?_
    · have h0 : subLen l m 0 = l := by
        unfold subLen
        rw [if_pos (by omega)]
      simp [h0, Nat.zero_min]
    · refine List.map_congr_left ?_
      intro k hk
      rw [List.mem_range] at hk
      show Stride.mk _ _ _ = Stride.mk _ _ _
      rw [Stride.mk.injEq]
      exact ⟨((subStep l m c k S d hk).1).symm, ((subStep l m c k S d hk).2).symm, rfl⟩

/-! Arithmetic facts about the ceiling division seeding the partitioner.
`omega` does not handle division or remainder by a variable, so each proof
first decomposes the length as `n * a + r` with `r < n`. -/

theorem mul_add_div_lt (n a r : Nat) (hn : 0 < n) (hm : r < n) : (n * a + r) / n = a := by
  rw [Nat.mul_add_div hn, Nat.div_eq_of_lt hm]
  omega

theorem mul_add_mod_lt (n a r : Nat) (hm : r < n) : (n * a + r) % n = r := by
  rw [Nat.mul_add_mod, Nat.mod_eq_of_lt hm]

theorem ceil_div_facts (L n : Nat) (hn : 0 < n) :
    (L % n = 0 → (L + n - 1) / n = L / n)
    ∧ (L % n ≠ 0 → (L + n - 1) / n = L / n + 1) := by
  obtain ⟨a, r, rfl, hm⟩ : ∃ a r, L = n * a + r ∧ r < n :=
    ⟨L / n, L % n, (Nat.div_add_mod L n).symm, Nat.mod_lt L hn⟩
  rw [mul_add_div_lt n a r hn hm, mul_add_mod_lt n a r hm]
  constructor
  · intro hr
    subst hr
    rw [show n * a + 0 + n - 1 = n * a + (n - 1) from by omega]
    rw [Nat.mul_add_div hn, Nat.div_eq_of_lt (by omega)]
    omega
  · intro hr
    rw [show n * a + r + n - 1 = n * a + (r + n - 1) from by omega]
    rw [Nat.mul_add_div hn]
    have h1 : 1 ≤ (r + n - 1) / n := (Nat.le_div_iff_mul_le hn).mpr (by omega)
    have h2 : (r + n - 1) / n < 2 := (Nat.div_lt_iff_lt_mul hn).mpr (by omega)
    omega

theorem subLen_eval (L n k : Nat) (hn : 0 < n) :
    subLen ((L + n - 1) / n) (L % n) k
      = if k < L % n then (L + n - 1) / n else L / n := by
  have hq0 := (ceil_div_facts L n hn).1
  have hq1 := (ceil_div_facts L n hn).2
  obtain ⟨a, r, rfl, hm⟩ : ∃ a r, L = n * a + r ∧ r < n :=
    ⟨L / n, L % n, (Nat.div_add_mod L n).symm, Nat.mod_lt L hn⟩
  rw [mul_add_div_lt n a r hn hm, mul_add_mod_lt n a r hm] at hq0 hq1 ⊢
  unfold subLen
  by_cases hr : r = 0
  · rw [if_pos (Or.inl hr), if_neg (by omega), hq0 hr]
  · rw [hq1 hr]
    by_cases hkr : k < r
    · rw [if_pos (Or.inr hkr), if_pos hkr]
    · rw [if_neg (by omega), if_neg hkr]
      omega

theorem subLen_lt_iff (L n k j : Nat) (hn : 0 < n) (hk : k < n) :
    j < subLen ((L + n - 1) / n) (L % n) k ↔ j * n + k < L := by
  rw [subLen_eval L n k hn]
  have hq1 := (ceil_div_facts L n hn).2
  obtain ⟨a, r, rfl, hm⟩ : ∃ a r, L = n * a + r ∧ r < n :=
    ⟨L / n, L % n, (Nat.div_add_mod L n).symm, Nat.mod_lt L hn⟩
  rw [mul_add_div_lt n a r hn hm, mul_add_mod_lt n a r hm] at hq1 ⊢
  by_cases hkr : k < r
  · rw [if_pos hkr, hq1 (by omega)]
    constructor
    · intro hj
      have h1 : j * n ≤ a * n := Nat.mul_le_mul_right n (by omega)
      have h2 : a * n = n * a := Nat.mul_comm a n
      omega
    · intro hj
      by_contra hc
      have h1 : (a + 1) * n ≤ j * n := Nat.mul_le_mul_right n (by omega)
      have h2 : (a + 1) * n = n * a + n := by ring
      omega
  · rw [if_neg hkr]
    constructor
    · intro hj
      have h1 : (j + 1) * n ≤ a * n := Nat.mul_le_mul_right n (by omega)
      have h2 : (j + 1) * n = j * n + n := by ring
      have h3 : a * n = n * a := Nat.mul_comm a n
      omega
    · intro hj
      by_contra hc
      have h1 : a * n ≤ j * n := Nat.mul_le_mul_right n (by omega)
      have h3 : a * n = n * a := Nat.mul_comm a n
      omega

theorem subZ_eval (L n k : Nat) (hn : 0 < n) (hk : k < n) :
    min k (subZ ((L + n - 1) / n) (L % n) n) = min k (L - 1) := by
  have hq0 := (ceil_div_facts L n hn).1
  have hq1 := (ceil_div_facts L n hn).2
  obtain ⟨a, r, rfl, hm⟩ : ∃ a r, L = n * a + r ∧ r < n :=
    ⟨L / n, L % n, (Nat.div_add_mod L n).symm, Nat.mod_lt L hn⟩
  rw [mul_add_div_lt n a r hn hm, mul_add_mod_lt n a r hm] at hq0 hq1
  rw [mul_add_mod_lt n a r hm]
  unfold subZ
  by_cases hr : r = 0
  · rw [hq0 hr]
    subst hr
    by_cases ha0 : a = 0
    · subst ha0
      simp
    · rw [if_neg ha0, if_neg (by simp)]
      have h1 : n * 1 ≤ n * a := Nat.mul_le_mul_left n (by omega)
      omega
  · rw [hq1 hr]
    rw [if_neg (by omega)]
    by_cases ha0 : a = 0
    · subst ha0
      rw [if_pos ⟨hr, rfl⟩]
      simp
    · rw [if_neg (by omega)]
      have h1 : n * 1 ≤ n * a := Nat.mul_le_mul_left n (by omega)
      omega

/-! List machinery for the round-robin recombination. -/

theorem filter_range_lt (n t : Nat) :
    (List.range n).filter (fun k => decide (k < t)) = List.range (min t n) := by
  induction n with
  | zero => simp
  | succ n ih =>
    rw [List.range_succ, List.filter_append, ih]
    by_cases h : n < t
    · have h1 : min t n = n := by omega
      have h2 : min t (n + 1) = n + 1 := by omega
      rw [h1, h2, List.range_succ]
      simp [h]
    · have h1 : min t n = t := by omega
      have h2 : min t (n + 1) = t := by omega
      rw [h1, h2]
      simp [h]

theorem flatMap_range_mul {α : Type} (q n : Nat) (f : Nat → α) :
    (List.range q).flatMap (fun j => (List.range n).map (fun k => f (j * n + k)))
      = (List.range (q * n)).map f := by
  induction q with
  | zero => simp
  | succ q ih =>
    rw [List.range_succ, List.flatMap_append, ih]
    rw [show (q + 1) * n = q * n + n from by ring, List.range_add, List.map_append,
        List.map_map]
    rw [List.flatMap_cons, List.flatMap_nil, List.append_nil]
    rfl

/-- The full arithmetic sequence, cut into `ceil(L/n)` rounds of `n`
consecutive indices each (the last round partial). -/
theorem blocks_eq {α : Type} (L n : Nat) (hn : 0 < n) (f : Nat → α) :
    (List.range ((L + n - 1) / n)).flatMap
        (fun j => ((List.range n).filter (fun k => decide (j * n + k < L))).map
          (fun k => f (j * n + k)))
      = (List.range L).map f := by
  by_cases hL0 : L = 0
  · subst hL0
    rw [show (0 + n - 1) / n = 0 from Nat.div_eq_of_lt (by omega)]
    rfl
  · obtain ⟨M, rfl⟩ : ∃ M, L = M + 1 := ⟨L - 1, by omega⟩
    obtain ⟨p, v, rfl, hv⟩ : ∃ p v, M = n * p + v ∧ v < n :=
      ⟨M / n, M % n, (Nat.div_add_mod M n).symm, Nat.mod_lt M hn⟩
    have hq : (n * p + v + 1 + n - 1) / n = p + 1 := by
      rw [show n * p + v + 1 + n - 1 = n * p + (v + n) from by omega, Nat.mul_add_div hn]
      have h1 : 1 ≤ (v + n) / n := (Nat.le_div_iff_mul_le hn).mpr (by omega)
      have h2 : (v + n) / n < 2 := (Nat.div_lt_iff_lt_mul hn).mpr (by omega)
      omega
    rw [hq, List.range_succ, List.flatMap_append]
    have hfull : (List.range p).flatMap
        (fun j => ((List.range n).filter (fun k => decide (j * n + k < n * p + v + 1))).map
          (fun k => f (j * n + k)))
        = (List.range (p * n)).map f := by
      rw [← flatMap_range_mul p n f]
      refine List.flatMap_congr ?_
      intro j hj
      rw [List.mem_range] at hj
      have hall : (List.range n).filter (fun k => decide (j * n + k < n * p + v + 1))
          = List.range n := by
        rw [List.filter_eq_self]
        intro k hk
        rw [List.mem_range] at hk
        have h1 : (j + 1) * n ≤ p * n := Nat.mul_le_mul_right n (by omega)
        have h2 : (j + 1) * n = j * n + n := by ring
        have h3 : p * n = n * p := Nat.mul_comm p n
        simp only [decide_eq_true_eq]
        omega
      rw [hall]
    have hlast : ((List.range n).filter (fun k => decide (p * n + k < n * p + v + 1))).map
          (fun k => f (p * n + k))
        = (List.range (v + 1)).map (fun k => f (p * n + k)) := by
      have hcong : ∀ k ∈ List.range n,
          decide (p * n + k < n * p + v + 1) = decide (k < v + 1) := by
        intro k hk
        rw [decide_eq_decide]
        have h3 : p * n = n * p := Nat.mul_comm p n
        omega
      rw [List.filter_congr hcong, filter_range_lt]
      rw [show min (v + 1) n = v + 1 from by omega]
    rw [List.flatMap_cons, List.flatMap_nil, List.append_nil, hfull, hlast]
    have hsplit : n * p + v + 1 = p * n + (v + 1) := by
      have h3 : p * n = n * p := Nat.mul_comm p n
      omega
    conv_rhs => rw [hsplit, List.range_add, List.map_append, List.map_map]
    rfl

/-! Helpers for the round-robin evaluation. -/

theorem subLen_le (l m k : Nat) : subLen l m k ≤ l := by
  unfold subLen
  split <;> omega

theorem subLen_zero (l m : Nat) : subLen l m 0 = l := by
  unfold subLen
  rw [if_pos (by omega)]

theorem foldr_maxLen_le {α : Type} (ls : List (List α)) (q : Nat)
    (hall : ∀ l ∈ ls, l.length ≤ q) :
    ls.foldr (fun l m => max l.length m) 0 ≤ q := by
  induction ls with
  | nil => exact Nat.zero_le q
  | cons x xs ih =>
    have h1 := hall x (List.mem_cons_self x xs)
    have h2 := ih (fun l hl => hall l (List.mem_cons_of_mem x hl))
    show max x.length (xs.foldr (fun l m => max l.length m) 0) ≤ q
    omega

theorem foldr_maxLen_eq {α : Type} (ls : List (List α)) (q : Nat)
    (hmem : ∃ l ∈ ls, l.length = q) (hall : ∀ l ∈ ls, l.length ≤ q) :
    ls.foldr (fun l m => max l.length m) 0 = q := by
  induction ls with
  | nil =>
    obtain ⟨l, hl, _⟩ := hmem
    cases hl
  | cons x xs ih =>
    have hub : ∀ l ∈ xs, l.length ≤ q := fun l hl => hall l (List.mem_cons_of_mem x hl)
    have hb := foldr_maxLen_le xs q hub
    have hx := hall x (List.mem_cons_self x xs)
    show max x.length (xs.foldr (fun l m => max l.length m) 0) = q
    obtain ⟨l, hl, hlq⟩ := hmem
    rcases List.mem_cons.mp hl with rfl | hmem'
    · omega
    · have := ih ⟨l, hmem', hlq⟩ hub
      omega

theorem filterMap_ite {α β : Type} (l : List α) (p : α → Prop) [DecidablePred p] (f : α → β) :
    l.filterMap (fun x => if p x then some (f x) else none)
      = (l.filter (fun x => decide (p x))).map f := by
  induction l with
  | nil => rfl
  | cons x xs ih =>
    by_cases h : p x
    · simp [List.filterMap_cons, List.filter_cons, h, ih]
    · simp [List.filterMap_cons, List.filter_cons, h, ih]

theorem roundRobin_map {α β : Type} (f : α → β) (ls : List (List α)) :
    roundRobin (ls.map (List.map f)) = (roundRobin ls).map f := by
  unfold roundRobin
  have hlen : (ls.map (List.map f)).foldr (fun l m => max l.length m) 0
      = ls.foldr (fun l m => max l.length m) 0 := by
    induction ls with
    | nil => rfl
    | cons x xs ih =>
      show max (x.map f).length _ = max x.length _
      rw [List.length_map, ih]
  rw [hlen, List.map_flatMap]
  refine List.flatMap_congr ?_
  intro j _
  rw [List.filterMap_map, List.map_filterMap]
  refine List.filterMap_congr ?_
  intro l _
  show (l.map f)[j]? = (l[j]?).map f
  rw [List.getElem?_map]

theorem sum_if_lt (rr aa : Nat) : ∀ N : Nat,
    ((List.range N).map (fun k => if k < rr then aa + 1 else aa)).sum = N * aa + min rr N := by
  intro N
  induction N with
  | zero => simp
  | succ N ih =>
    rw [List.range_succ, List.map_append, List.sum_append, ih]
    have hexp : (N + 1) * aa = N * aa + aa := by ring
    by_cases h : N < rr
    · rw [List.map_cons, List.map_nil, List.sum_cons, List.sum_nil, if_pos h]
      omega
    · rw [List.map_cons, List.map_nil, List.sum_cons, List.sum_nil, if_neg h]
      omega

theorem Substrides.next_count (s : Substrides) (h : s.count ≠ 0) :
    ∃ v s', s.next = some (v, s') ∧ s'.count = s.count - 1 := by
  rw [Substrides.next, if_neg h]
  exact ⟨_, _, rfl, rfl⟩

theorem Substrides.next_none (s : Substrides) (h : s.count = 0) : s.next = none := by
  rw [Substrides.next, if_pos h]

theorem Substrides.runFuel_length (c : Nat) :
    ∀ s : Substrides, s.count = c → (Substrides.runFuel c s).length = c := by
  induction c with
  | zero => intro s _; rfl
  | succ c ih =>
    intro s h
    obtain ⟨v, s', hnext, hc⟩ := Substrides.next_count s (by omega)
    rw [Substrides.runFuel, hnext]
    rw [List.length_cons, ih s' (by omega)]

theorem Substrides.run_length (s : Substrides) : s.run.length = s.count :=
  Substrides.runFuel_length s.count s rfl

theorem Substrides.afterK_count : ∀ (k : Nat) (s : Substrides),
    (Substrides.afterK k s).count = s.count - k := by
  intro k
  induction k with
  | zero => intro s; rw [Substrides.afterK]; omega
  | succ k ih =>
    intro s
    rw [Substrides.afterK, ih s.step1]
    by_cases h : s.count = 0
    · rw [show s.step1 = s from by rw [Substrides.step1, Substrides.next_none s h]]
      omega
    · obtain ⟨v, s', hnext, hc⟩ := Substrides.next_count s h
      rw [show s.step1 = s' from by rw [Substrides.step1, hnext]]
      omega

/-- C1: with a non-zero element size, `n ≥ 1` and no stride overflow,
`substrides(n)` on a view of length `L` yields exactly `n` views; their
lengths sum to `L`; view `k` has length `ceil(L/n)` for `k < L mod n` and
`floor(L/n)` otherwise; round-robin interleaving of the views by partition
index recovers the original element sequence in order (both as addresses
and as stored elements); the size hint after `k` productions is exactly
`n - k`, the number of views not yet produced (reported as both bounds);
and the partitioner is exhausted after exactly `n` productions. -/
theorem substrides_spec {α : Type} (sz : Nat) (hsz : sz ≠ 0) (d L S n : Nat)
    (hn : n ≠ 0) (hmul : n * S < W) (mem : Nat → α) :
    ∃ ss : Substrides,
      Stride.substrides sz ⟨d, L, S⟩ n = .ok ss
      ∧ ss.run.length = n
      ∧ (ss.run.map Stride.len).sum = L
      ∧ (∀ k, (hk : k < ss.run.length) →
          (ss.run.get ⟨k, hk⟩).len = if k < L % n then (L + n - 1) / n else L / n)
      ∧ roundRobin (ss.run.map Stride.toList) = Stride.toList ⟨d, L, S⟩
      ∧ roundRobin (ss.run.map (Stride.elems mem)) = Stride.elems mem ⟨d, L, S⟩
      ∧ (∀ k : Nat, (Substrides.afterK k ss).size_hint = (n - k, some (n - k))
          ∧ (Substrides.afterK k ss).run.length = n - k)
      ∧ (Substrides.afterK n ss).next = none := by
  have hn' : 0 < n := by omega
  have hrun : Substrides.run ⟨⟨d, (L + n - 1) / n, n * S⟩, S, L % n, n⟩
      = (List.range n).map (fun k =>
          ⟨d + min k (L - 1) * S, subLen ((L + n - 1) / n) (L % n) k, n * S⟩) := by
    show Substrides.runFuel n ⟨⟨d, (L + n - 1) / n, n * S⟩, S, L % n, n⟩ = _
    rw [Substrides.runFuel_closed n d ((L + n - 1) / n) (n * S) S (L % n)]
    refine List.map_congr_left ?_
    intro k hk
    rw [List.mem_range] at hk
    rw [subZ_eval L n k hn' hk]
  have hrr : roundRobin ((List.range n).map
      (fun k => Stride.toList ⟨d + min k (L - 1) * S, subLen ((L + n - 1) / n) (L % n) k, n * S⟩))
      = (List.range L).map (fun i => d + i * S) := by
    unfold roundRobin
    have hmax : (((List.range n).map
        (fun k => Stride.toList
          ⟨d + min k (L - 1) * S, subLen ((L + n - 1) / n) (L % n) k, n * S⟩))).foldr
        (fun l m => max l.length m) 0 = (L + n - 1) / n := by
      apply foldr_maxLen_eq
      · refine ⟨Stride.toList
          ⟨d + min 0 (L - 1) * S, subLen ((L + n - 1) / n) (L % n) 0, n * S⟩,
          List.mem_map_of_mem _ (List.mem_range.mpr hn'), ?_⟩
        rw [Stride.length_toList]
        exact subLen_zero _ _
      · intro l hl
        rw [List.mem_map] at hl
        obtain ⟨k, _, rfl⟩ := hl
        rw [Stride.length_toList]
        exact subLen_le _ _ _
    rw [hmax]
    refine Eq.trans (List.flatMap_congr ?_) (blocks_eq L n hn' (fun i => d + i * S))
    intro j hj
    rw [List.filterMap_map]
    have h1 : ∀ k ∈ List.range n,
        ((fun l => l[j]?) ∘ (fun k => Stride.toList
            ⟨d + min k (L - 1) * S, subLen ((L + n - 1) / n) (L % n) k, n * S⟩)) k
          = (fun k => if j < subLen ((L + n - 1) / n) (L % n) k
              then some ((d + min k (L - 1) * S) + j * (n * S)) else none) k := by
      intro k _
      show (Stride.toList ⟨_, _, _⟩)[j]? = _
      rw [Stride.getElem?_toList]
    rw [List.filterMap_congr h1, filterMap_ite]
    have h2 : ∀ k ∈ List.range n,
        decide (j < subLen ((L + n - 1) / n) (L % n) k) = decide (j * n + k < L) := by
      intro k hk
      rw [decide_eq_decide]
      exact subLen_lt_iff L n k j hn' (List.mem_range.mp hk)
    rw [List.filter_congr h2]
    refine List.map_congr_left ?_
    intro k hk
    rw [List.mem_filter] at hk
    have hklt : j * n + k < L := of_decide_eq_true hk.2
    rw [show min k (L - 1) = k from by omega]
    ring
  refine ⟨⟨⟨d, (L + n - 1) / n, n * S⟩, S, L % n, n⟩, ?_, ?_, ?_, ?_, ?_, ?_, ?_, ?_⟩
  · rw [Stride.substrides, if_neg hn]
    rw [show checked_mul n (⟨d, L, S⟩ : Stride).stride = some (n * S) from by
        rw [checked_mul, if_pos hmul]]
    simp only [Stride.new_raw, if_neg hsz]
    rfl
  · rw [hrun, List.length_map, List.length_range]
  · rw [hrun, List.map_map]
    have hcong : (List.range n).map
        (Stride.len ∘ fun k =>
          (⟨d + min k (L - 1) * S, subLen ((L + n - 1) / n) (L % n) k, n * S⟩ : Stride))
        = (List.range n).map (fun k => if k < L % n then L / n + 1 else L / n) := by
      refine List.map_congr_left ?_
      intro k hk
      show subLen ((L + n - 1) / n) (L % n) k = _
      rw [subLen_eval L n k hn']
      by_cases hkr : k < L % n
      · rw [if_pos hkr, if_pos hkr,
            (ceil_div_facts L n hn').2 (by intro h0; rw [h0] at hkr; omega)]
      · rw [if_neg hkr, if_neg hkr]
    rw [hcong, sum_if_lt]
    rw [Nat.min_eq_left (Nat.le_of_lt (Nat.mod_lt L hn'))]
    exact Nat.div_add_mod L n
  · intro k hk
    have hk' : k < n := by
      rw [Substrides.run_length] at hk
      exact hk
    rw [List.get_eq_getElem]
    simp only [hrun, List.getElem_map, List.getElem_range]
    exact subLen_eval L n k hn'
  · rw [hrun, List.map_map]
    exact hrr
  · rw [show (Substrides.run ⟨⟨d, (L + n - 1) / n, n * S⟩, S, L % n, n⟩).map (Stride.elems mem)
          = ((Substrides.run ⟨⟨d, (L + n - 1) / n, n * S⟩, S, L % n, n⟩).map
              Stride.toList).map (List.map mem) from by
        rw [List.map_map]
        rfl]
    rw [roundRobin_map, hrun, List.map_map]
    exact congrArg (List.map mem) hrr
  · intro k
    constructor
    · rw [Substrides.size_hint, Substrides.afterK_count]
    · rw [Substrides.run_length, Substrides.afterK_count]
  · refine Substrides.next_none _ ?_
    rw [Substrides.afterK_count]
    show n - n = 0
    omega

/-- Witness for C1: the spec scenario `[1..7]` split three ways
(`substrides(3)` on a seven-element stride-1 view). -/
theorem substrides_spec_witness :
    ∃ ss : Substrides,
      Stride.substrides 1 ⟨0, 7, 1⟩ 3 = .ok ss
      ∧ ss.run.length = 3
      ∧ (ss.run.map Stride.len).sum = 7
      ∧ (∀ k, (hk : k < ss.run.length) →
          (ss.run.get ⟨k, hk⟩).len = if k < 7 % 3 then (7 + 3 - 1) / 3 else 7 / 3)
      ∧ roundRobin (ss.run.map Stride.toList) = Stride.toList ⟨0, 7, 1⟩
      ∧ roundRobin (ss.run.map (Stride.elems (fun a => a + 1)))
          = Stride.elems (fun a => a + 1) ⟨0, 7, 1⟩
      ∧ (∀ k : Nat, (Substrides.afterK k ss).size_hint = (3 - k, some (3 - k))
          ∧ (Substrides.afterK k ss).run.length = 3 - k)
      ∧ (Substrides.afterK 3 ss).next = none :=
  substrides_spec 1 (by decide) 0 7 1 3 (by decide) (by norm_num [W]) (fun a => a + 1)

/-! ## C8: equality, ordering and rendering

`impl PartialEq/PartialOrd/Ord/Debug for Stride` (src/base.rs:21-54) all
iterate the view; `order::eq`, `order::partial_cmp` and `order::cmp` are
the element-wise comparison loops of `std::iter::order` (Rust 1.0-era),
translated below over the iterated element lists. -/

/-- Models `std::iter::order::eq`: pairwise equality, both iterators must end
together. -/
def orderEq (beq : α → α → Bool) : List α → List α → Bool
  | [], [] => true
  | [], _ :: _ => false
  | _ :: _, [] => false
  | x :: xs, y :: ys => beq x y && orderEq beq xs ys

/-- Models `std::iter::order::partial_cmp`: lexicographic, propagating the first
non-`eq` element comparison (including `None` for incomparable). -/
def orderPCmp (pc : α → α → Option Ordering) : List α → List α → Option Ordering
  | [], [] => some .eq
  | [], _ :: _ => some .lt
  | _ :: _, [] => some .gt
  | x :: xs, y :: ys =>
    match pc x y with
    | some .eq => orderPCmp pc xs ys
    | o => o

/-- Models `std::iter::order::cmp`: total lexicographic comparison. -/
def orderCmp (c : α → α → Ordering) : List α → List α → Ordering
  | [], [] => .eq
  | [], _ :: _ => .lt
  | _ :: _, [] => .gt
  | x :: xs, y :: ys =>
    match c x y with
    | .eq => orderCmp c xs ys
    | o => o

/-- Models `impl PartialEq for Stride` (src/base.rs:21-26):
`self.len() == other.len() && order::eq(self.iter(), other.iter())`. -/
def Stride.eqImpl {α : Type} (mem : Nat → α) (beq : α → α → Bool) (a b : Stride) : Bool :=
  (a.len == b.len) && orderEq beq (a.iterRun.map mem) (b.iterRun.map mem)

/-- Models `impl PartialOrd for Stride` (src/base.rs:29-33):
`order::partial_cmp(self.iter(), other.iter())`. -/
def Stride.pcmpImpl {α : Type} (mem : Nat → α) (pc : α → α → Option Ordering)
    (a b : Stride) : Option Ordering :=
  orderPCmp pc (a.iterRun.map mem) (b.iterRun.map mem)

/-- Models `impl Ord for Stride` (src/base.rs:34-38):
`order::cmp(self.iter(), other.iter())`. -/
def Stride.cmpImpl {α : Type} (mem : Nat → α) (c : α → α → Ordering) (a b : Stride) : Ordering :=
  orderCmp c (a.iterRun.map mem) (b.iterRun.map mem)

/-- Models `impl Debug for Stride` (src/base.rs:40-54): write `[`, then the
elements separated by `, ` via an `is_first` flag, then `]`. -/
def Stride.fmtImpl {α : Type} (mem : Nat → α) (render : α → String) (s : Stride) : String :=
  ((s.iterRun.map (fun ad => render (mem ad))).foldl
    (fun acc piece => (false, acc.2 ++ (if acc.1 then "" else ", ") ++ piece))
    (true, "[")).2 ++ "]"

/-- A comma-separated list, as the spec describes the rendering: empty for
no elements, else the first element followed by `, `-prefixed rest. -/
def commaSepTail : List String → String
  | [] => ""
  | x :: xs => ", " ++ x ++ commaSepTail xs

/-- See `commaSepTail`. -/
def commaSep : List String → String
  | [] => ""
  | x :: xs => x ++ commaSepTail xs

theorem Stride.iterRun_eq_toList (s : Stride) (h : 0 < s.stride) : s.iterRun = s.toList := by
  unfold Stride.iterRun
  rw [show s.data + s.stride * s.len = s.data + s.len * s.stride from by ring]
  exact Items.fwd_run s.stride h s.len s.len s.data (le_refl _)

theorem orderEq_iff_eq {α : Type} [DecidableEq α] : ∀ xs ys : List α,
    orderEq (fun x y => decide (x = y)) xs ys = true ↔ xs = ys := by
  intro xs
  induction xs with
  | nil => intro ys; cases ys <;> simp [orderEq]
  | cons x xs ih =>
    intro ys
    cases ys with
    | nil => simp [orderEq]
    | cons y ys => simp [orderEq, ih]

theorem lex_nil_right {α : Type} {r : α → α → Prop} {l : List α} : ¬ List.Lex r l [] :=
  fun h => nomatch h

theorem lex_cons_inv {α : Type} {r : α → α → Prop} {x y : α} {xs ys : List α}
    (h : List.Lex r (x :: xs) (y :: ys)) : r x y ∨ (x = y ∧ List.Lex r xs ys) := by
  cases h with
  | cons h' => exact Or.inr ⟨rfl, h'⟩
  | rel h' => exact Or.inl h'

theorem orderCmp_spec {α : Type} [LinearOrder α] : ∀ xs ys : List α,
    (orderCmp compare xs ys = Ordering.eq ↔ xs = ys)
    ∧ (orderCmp compare xs ys = Ordering.lt ↔ List.Lex (· < ·) xs ys)
    ∧ (orderCmp compare xs ys = Ordering.gt ↔ List.Lex (· < ·) ys xs) := by
  intro xs
  induction xs with
  | nil =>
    intro ys
    cases ys with
    | nil =>
      refine ⟨by simp [orderCmp], ?_, ?_⟩ <;>
        exact iff_of_false (by simp [orderCmp]) lex_nil_right
    | cons y ys =>
      refine ⟨by simp [orderCmp], iff_of_true (by rw [orderCmp]) List.Lex.nil,
        iff_of_false (by simp [orderCmp]) lex_nil_right⟩
  | cons x xs ih =>
    intro ys
    cases ys with
    | nil =>
      refine ⟨by simp [orderCmp], iff_of_false (by simp [orderCmp]) lex_nil_right,
        iff_of_true (by rw [orderCmp]) List.Lex.nil⟩
    | cons y ys =>
      obtain ⟨ih1, ih2, ih3⟩ := ih ys
      rcases lt_trichotomy x y with hxy | hxy | hxy
      · have hval : orderCmp compare (x :: xs) (y :: ys) = .lt := by
          rw [orderCmp, compare_lt_iff_lt.mpr hxy]
        rw [hval]
        refine ⟨iff_of_false (by simp) ?_, iff_of_true rfl (List.Lex.rel hxy),
          iff_of_false (by simp) ?_⟩
        · intro h
          rw [List.cons.injEq] at h
          exact absurd h.1 (ne_of_lt hxy)
        · intro h
          rcases lex_cons_inv h with h' | ⟨heq, _⟩
          · exact absurd h' (lt_asymm hxy)
          · rw [heq] at hxy
            exact lt_irrefl x hxy
      · subst hxy
        have hval : orderCmp compare (x :: xs) (x :: ys) = orderCmp compare xs ys := by
          rw [orderCmp, compare_eq_iff_eq.mpr rfl]
        rw [hval]
        refine ⟨by rw [ih1]; simp, ?_, ?_⟩
        · rw [ih2]
          constructor
          · exact List.Lex.cons
          · intro h
            rcases lex_cons_inv h with h' | ⟨_, h2⟩
            · exact absurd h' (lt_irrefl x)
            · exact h2
        · rw [ih3]
          constructor
          · exact List.Lex.cons
          · intro h
            rcases lex_cons_inv h with h' | ⟨_, h2⟩
            · exact absurd h' (lt_irrefl x)
            · exact h2
      · have hval : orderCmp compare (x :: xs) (y :: ys) = .gt := by
          rw [orderCmp, compare_gt_iff_gt.mpr hxy]
        rw [hval]
        refine ⟨iff_of_false (by simp) ?_, iff_of_false (by simp) ?_,
          iff_of_true rfl (List.Lex.rel hxy)⟩
        · intro h
          rw [List.cons.injEq] at h
          exact absurd h.1 (ne_of_gt hxy)
        · intro h
          rcases lex_cons_inv h with h' | ⟨heq, _⟩
          · exact absurd h' (lt_asymm hxy)
          · rw [heq] at hxy
            exact lt_irrefl y hxy

theorem orderPCmp_none {α : Type} (pc : α → α → Option Ordering) :
    ∀ {xs ys : List α}, List.Forall₂ (fun u v => pc u v = some Ordering.eq) xs ys →
    ∀ (x y : α) (as bs : List α), pc x y = none →
      orderPCmp pc (xs ++ x :: as) (ys ++ y :: bs) = none := by
  intro xs ys h
  induction h with
  | nil =>
    intro x y as bs hxy
    rw [List.nil_append, List.nil_append, orderPCmp, hxy]
  | cons ha _ ih =>
    intro x y as bs hxy
    rw [List.cons_append, List.cons_append, orderPCmp, ha]
    exact ih x y as bs hxy

theorem fmt_foldl_aux : ∀ (ps : List String) (acc : String),
    ((ps.foldl (fun acc piece => (false, acc.2 ++ (if acc.1 then "" else ", ") ++ piece))
      ((false : Bool), acc)).2) = acc ++ commaSepTail ps := by
  intro ps
  induction ps with
  | nil =>
    intro acc
    rw [List.foldl_nil, commaSepTail, String.append_empty]
  | cons x xs ih =>
    intro acc
    rw [List.foldl_cons]
    show (xs.foldl _ ((false : Bool), acc ++ ", " ++ x)).2 = _
    rw [ih, commaSepTail]
    rw [String.append_assoc, String.append_assoc, String.append_assoc]

/-- The rendering loop produces the bracketed comma-separated list. -/
theorem fmtImpl_eq {α : Type} (mem : Nat → α) (render : α → String) (s : Stride)
    (h : 0 < s.stride) :
    Stride.fmtImpl mem render s = "[" ++ commaSep ((Stride.elems mem s).map render) ++ "]" := by
  rw [Stride.fmtImpl, Stride.iterRun_eq_toList s h]
  rw [show (Stride.elems mem s).map render = s.toList.map (fun ad => render (mem ad)) from by
      rw [Stride.elems, List.map_map]
      rfl]
  cases hps : s.toList.map (fun ad => render (mem ad)) with
  | nil =>
    rw [List.foldl_nil, commaSep, String.append_empty]
  | cons x xs =>
    rw [List.foldl_cons]
    show ((xs.foldl _ ((false : Bool), "[" ++ "" ++ x)).2 ++ "]") = _
    rw [String.append_empty, fmt_foldl_aux xs ("[" ++ x), commaSep]
    simp [String.append_assoc]

/-- C8: over the visible element sequences (positive strides, so the
iterator traversal is the address sequence): structural equality with
decidable element equality holds iff the element sequences are equal;
total ordering is exactly lexicographic sequence comparison (`eq` iff
equal, `lt`/`gt` iff `List.Lex` one way or the other); the element-wise
comparison loop propagates an incomparable pair (reached after equal
prefixes) as an incomparable result; and the rendering is the bracketed
comma-separated element list in traversal order. -/
theorem cmp_render_spec {α : Type} [LinearOrder α] [DecidableEq α] (mem : Nat → α)
    (render : α → String) (a b : Stride) (ha : 0 < a.stride) (hb : 0 < b.stride)
    (pc : α → α → Option Ordering) :
    (Stride.eqImpl mem (fun x y => decide (x = y)) a b = true
        ↔ Stride.elems mem a = Stride.elems mem b)
    ∧ (Stride.cmpImpl mem compare a b = Ordering.eq
        ↔ Stride.elems mem a = Stride.elems mem b)
    ∧ (Stride.cmpImpl mem compare a b = Ordering.lt
        ↔ List.Lex (· < ·) (Stride.elems mem a) (Stride.elems mem b))
    ∧ (Stride.cmpImpl mem compare a b = Ordering.gt
        ↔ List.Lex (· < ·) (Stride.elems mem b) (Stride.elems mem a))
    ∧ (∀ (xs ys : List α) (x y : α) (as bs : List α),
        List.Forall₂ (fun u v => pc u v = some Ordering.eq) xs ys →
        pc x y = none → orderPCmp pc (xs ++ x :: as) (ys ++ y :: bs) = none)
    ∧ Stride.fmtImpl mem render a
        = "[" ++ commaSep ((Stride.elems mem a).map render) ++ "]" := by
  have hea : a.iterRun.map mem = Stride.elems mem a := by
    rw [Stride.iterRun_eq_toList a ha]
    rfl
  have heb : b.iterRun.map mem = Stride.elems mem b := by
    rw [Stride.iterRun_eq_toList b hb]
    rfl
  refine ⟨?_, ?_, ?_, ?_, ?_, ?_⟩
  · rw [Stride.eqImpl, hea, heb, Bool.and_eq_true, orderEq_iff_eq]
    constructor
    · exact fun h => h.2
    · intro h
      refine ⟨?_, h⟩
      rw [beq_iff_eq]
      have hlen := congrArg List.length h
      rw [Stride.elems, Stride.elems, List.length_map, List.length_map,
          Stride.length_toList, Stride.length_toList] at hlen
      exact hlen
  · rw [Stride.cmpImpl, hea, heb]
    exact (orderCmp_spec (Stride.elems mem a) (Stride.elems mem b)).1
  · rw [Stride.cmpImpl, hea, heb]
    exact (orderCmp_spec (Stride.elems mem a) (Stride.elems mem b)).2.1
  · rw [Stride.cmpImpl, hea, heb]
    exact (orderCmp_spec (Stride.elems mem a) (Stride.elems mem b)).2.2
  · exact fun xs ys x y as bs hf hxy => orderPCmp_none pc hf x y as bs hxy
  · exact fmtImpl_eq mem render a ha

/-- Witness for C8 at concrete views (two two-element views over a
constant memory, so the sequences are equal). -/
theorem cmp_render_spec_witness :
    (Stride.eqImpl (fun _ => (0 : Nat)) (fun x y => decide (x = y)) ⟨0, 2, 1⟩ ⟨5, 2, 1⟩ = true
        ↔ Stride.elems (fun _ => (0 : Nat)) ⟨0, 2, 1⟩ = Stride.elems (fun _ => (0 : Nat)) ⟨5, 2, 1⟩)
    ∧ (Stride.cmpImpl (fun _ => (0 : Nat)) compare ⟨0, 2, 1⟩ ⟨5, 2, 1⟩ = Ordering.eq
        ↔ Stride.elems (fun _ => (0 : Nat)) ⟨0, 2, 1⟩ = Stride.elems (fun _ => (0 : Nat)) ⟨5, 2, 1⟩)
    ∧ (Stride.cmpImpl (fun _ => (0 : Nat)) compare ⟨0, 2, 1⟩ ⟨5, 2, 1⟩ = Ordering.lt
        ↔ List.Lex (· < ·) (Stride.elems (fun _ => (0 : Nat)) ⟨0, 2, 1⟩)
            (Stride.elems (fun _ => (0 : Nat)) ⟨5, 2, 1⟩))
    ∧ (Stride.cmpImpl (fun _ => (0 : Nat)) compare ⟨0, 2, 1⟩ ⟨5, 2, 1⟩ = Ordering.gt
        ↔ List.Lex (· < ·) (Stride.elems (fun _ => (0 : Nat)) ⟨5, 2, 1⟩)
            (Stride.elems (fun _ => (0 : Nat)) ⟨0, 2, 1⟩))
    ∧ (∀ (xs ys : List Nat) (x y : Nat) (as bs : List Nat),
        List.Forall₂ (fun u v => (fun _ _ => (none : Option Ordering)) u v = some Ordering.eq) xs ys →
        (fun _ _ => (none : Option Ordering)) x y = none →
          orderPCmp (fun _ _ => (none : Option Ordering)) (xs ++ x :: as) (ys ++ y :: bs) = none)
    ∧ Stride.fmtImpl (fun _ => (0 : Nat)) (fun v => toString v) ⟨0, 2, 1⟩
        = "[" ++ commaSep ((Stride.elems (fun _ => (0 : Nat)) ⟨0, 2, 1⟩).map (fun v => toString v)) ++ "]" :=
  cmp_render_spec (fun _ => (0 : Nat)) (fun v => toString v) ⟨0, 2, 1⟩ ⟨5, 2, 1⟩
    (by decide) (by decide) (fun _ _ => none)

/-! ## C9: the stride is always a positive multiple of the element size

Views reachable through the public interface: built from a plain slice
with element stride 1 (`imm::Stride::new` / `mut_::Stride::new` call
`Base::new(ptr, len, 1)`), then derived by slicing, splitting,
substriding or reborrowing (which copies the triple unchanged). -/

inductive Reachable (sz : Nat) : Stride → Prop
  | new : ∀ d L s, Stride.new sz d L 1 = .ok s → Reachable sz s
  | slice : ∀ s fr hi s', Reachable sz s → Stride.slice sz s fr hi = .ok s' → Reachable sz s'
  | slice_from : ∀ s fr s', Reachable sz s → Stride.slice_from sz s fr = .ok s' →
      Reachable sz s'
  | slice_to : ∀ s hi s', Reachable sz s → Stride.slice_to sz s hi = .ok s' →
      Reachable sz s'
  | split_left : ∀ s idx l r, Reachable sz s → Stride.split_at sz s idx = .ok (l, r) →
      Reachable sz l
  | split_right : ∀ s idx l r, Reachable sz s → Stride.split_at sz s idx = .ok (l, r) →
      Reachable sz r
  | sub2_left : ∀ s l r, Reachable sz s → Stride.substrides2 sz s = .ok (l, r) →
      Reachable sz l
  | sub2_right : ∀ s l r, Reachable sz s → Stride.substrides2 sz s = .ok (l, r) →
      Reachable sz r
  | subn : ∀ s n ss v, Reachable sz s → Stride.substrides sz s n = .ok ss →
      v ∈ ss.run → Reachable sz v

theorem new_raw_ok {sz d L S : Nat} {s : Stride} (h : Stride.new_raw sz d L S = .ok s) :
    sz ≠ 0 ∧ s = ⟨d, L, S⟩ := by
  rw [Stride.new_raw] at h
  by_cases hsz : sz = 0
  · rw [if_pos hsz] at h
    cases h
  · rw [if_neg hsz] at h
    cases h
    exact ⟨hsz, rfl⟩

theorem slice_ok {sz fr hi : Nat} {s s' : Stride} (h : Stride.slice sz s fr hi = .ok s') :
    s'.stride = s.stride := by
  rw [Stride.slice] at h
  by_cases hc : fr ≤ hi ∧ hi ≤ s.len
  · rw [if_pos hc] at h
    rw [(new_raw_ok h).2]
  · rw [if_neg hc] at h
    cases h

theorem split_at_ok {sz idx : Nat} {s l r : Stride}
    (h : Stride.split_at sz s idx = .ok (l, r)) :
    l.stride = s.stride ∧ r.stride = s.stride := by
  rw [Stride.split_at] at h
  by_cases hc : idx ≤ s.len
  · rw [if_pos hc] at h
    by_cases hsz : sz = 0
    · simp only [Stride.new_raw, if_pos hsz] at h
      cases h
    · simp only [Stride.new_raw, if_neg hsz] at h
      cases h
      exact ⟨rfl, rfl⟩
  · rw [if_neg hc] at h
    cases h

theorem substrides2_ok {sz : Nat} {s l r : Stride}
    (h : Stride.substrides2 sz s = .ok (l, r)) :
    l.stride = s.stride * 2 ∧ r.stride = s.stride * 2 := by
  rw [Stride.substrides2] at h
  by_cases hm : s.stride * 2 < W
  · rw [show checked_mul s.stride 2 = some (s.stride * 2) from by
        rw [checked_mul, if_pos hm]] at h
    by_cases hsz : sz = 0
    · simp only [Stride.new_raw, if_pos hsz] at h
      cases h
    · simp only [Stride.new_raw, if_neg hsz] at h
      cases h
      exact ⟨rfl, rfl⟩
  · rw [show checked_mul s.stride 2 = none from by rw [checked_mul, if_neg hm]] at h
    cases h

theorem substrides_ok {sz n : Nat} {s : Stride} {ss : Substrides}
    (h : Stride.substrides sz s n = .ok ss) :
    ∀ v ∈ ss.run, v.stride = n * s.stride := by
  rw [Stride.substrides] at h
  by_cases hn : n = 0
  · rw [if_pos hn] at h
    cases h
  · rw [if_neg hn] at h
    by_cases hm : n * s.stride < W
    · rw [show checked_mul n s.stride = some (n * s.stride) from by
          rw [checked_mul, if_pos hm]] at h
      by_cases hsz : sz = 0
      · simp only [Stride.new_raw, if_pos hsz] at h
        cases h
      · simp only [Stride.new_raw, if_neg hsz] at h
        cases h
        intro v hv
        rw [show Substrides.run
              ⟨⟨s.data, (s.len + n - 1) / n, n * s.stride⟩, s.stride, s.len % n, n⟩
              = (List.range n).map (fun k =>
                  ⟨s.data + min k (subZ ((s.len + n - 1) / n) (s.len % n) n) * s.stride,
                   subLen ((s.len + n - 1) / n) (s.len % n) k, n * s.stride⟩) from
            Substrides.runFuel_closed n s.data ((s.len + n - 1) / n) (n * s.stride)
              s.stride (s.len % n)] at hv
        rw [List.mem_map] at hv
        obtain ⟨k, _, rfl⟩ := hv
        rfl
    · rw [show checked_mul n s.stride = none from by rw [checked_mul, if_neg hm]] at h
      cases h

/-- C9: every view reachable through the public interface has a byte
stride that is a positive exact multiple of the (then necessarily
non-zero) element size; and the deriving operations act on the stride
exactly as claimed: slicing and splitting keep it, `substrides2` doubles
it, `substrides(n)` multiplies it by `n`. -/
theorem stride_multiple_invariant (sz : Nat) :
    (∀ s : Stride, Reachable sz s → 0 < sz ∧ ∃ k, 1 ≤ k ∧ s.stride = k * sz)
    ∧ (∀ (s s' : Stride) (fr hi : Nat),
        Stride.slice sz s fr hi = .ok s' → s'.stride = s.stride)
    ∧ (∀ (s l r : Stride) (idx : Nat), Stride.split_at sz s idx = .ok (l, r) →
        l.stride = s.stride ∧ r.stride = s.stride)
    ∧ (∀ (s l r : Stride), Stride.substrides2 sz s = .ok (l, r) →
        l.stride = s.stride * 2 ∧ r.stride = s.stride * 2)
    ∧ (∀ (s : Stride) (n : Nat) (ss : Substrides), Stride.substrides sz s n = .ok ss →
        ∀ v ∈ ss.run, v.stride = n * s.stride) := by
  refine ⟨?_, fun s s' fr hi h => slice_ok h, fun s l r idx h => split_at_ok h,
    fun s l r h => substrides2_ok h, fun s n ss h => substrides_ok h⟩
  intro s hreach
  induction hreach with
  | new d L s hok =>
    rw [Stride.new] at hok
    obtain ⟨hsz, rfl⟩ := new_raw_ok hok
    exact ⟨by omega, 1, le_refl 1, by show 1 * sz = 1 * sz; rfl⟩
  | slice s fr hi s' _ hok ih =>
    obtain ⟨hsz, k, hk, hstr⟩ := ih
    exact ⟨hsz, k, hk, by rw [slice_ok hok, hstr]⟩
  | slice_from s fr s' _ hok ih =>
    obtain ⟨hsz, k, hk, hstr⟩ := ih
    rw [Stride.slice_from] at hok
    exact ⟨hsz, k, hk, by rw [slice_ok hok, hstr]⟩
  | slice_to s hi s' _ hok ih =>
    obtain ⟨hsz, k, hk, hstr⟩ := ih
    rw [Stride.slice_to] at hok
    exact ⟨hsz, k, hk, by rw [slice_ok hok, hstr]⟩
  | split_left s idx l r _ hok ih =>
    obtain ⟨hsz, k, hk, hstr⟩ := ih
    exact ⟨hsz, k, hk, by rw [(split_at_ok hok).1, hstr]⟩
  | split_right s idx l r _ hok ih =>
    obtain ⟨hsz, k, hk, hstr⟩ := ih
    exact ⟨hsz, k, hk, by rw [(split_at_ok hok).2, hstr]⟩
  | sub2_left s l r _ hok ih =>
    obtain ⟨hsz, k, hk, hstr⟩ := ih
    refine ⟨hsz, 2 * k, by omega, ?_⟩
    rw [(substrides2_ok hok).1, hstr]
    ring
  | sub2_right s l r _ hok ih =>
    obtain ⟨hsz, k, hk, hstr⟩ := ih
    refine ⟨hsz, 2 * k, by omega, ?_⟩
    rw [(substrides2_ok hok).2, hstr]
    ring
  | subn s n ss v _ hok hv ih =>
    obtain ⟨hsz, k, hk, hstr⟩ := ih
    have hn : n ≠ 0 := by
      intro h0
      rw [h0, Stride.substrides, if_pos rfl] at hok
      cases hok
    refine ⟨hsz, n * k, ?_, ?_⟩
    · have : 1 ≤ n := by omega
      exact Nat.one_le_iff_ne_zero.mpr (by positivity)
    · rw [substrides_ok hok v hv, hstr]
      ring

/-- Witness for C9: a view built from a five-element slice of a 4-byte
element type, then split two ways. -/
theorem stride_multiple_invariant_witness :
    0 < 4 ∧ ∃ k, 1 ≤ k ∧ (⟨0, 5, 4⟩ : Stride).stride = k * 4 :=
  (stride_multiple_invariant 4).1 ⟨0, 5, 4⟩ (Reachable.new 0 5 ⟨0, 5, 4⟩ rfl)

/-! ## C10: the mutable wrapper dereferences to the shared wrapper

`imm::Stride` and `mut_::Stride` (src/imm.rs, src/mut_.rs) each wrap the
same raw `base::Stride` triple (both `repr(C)` with `base` as the single
data field); `mut_`'s `Deref` impl transmutes the mutable wrapper to the
shared one, which — the layouts being identical — extracts the `base`
field and re-wraps it.  `deref` below is that field-preserving map. -/

/-- Models `imm::Stride` (src/imm.rs). -/
structure ImmStride where
  base : Stride
  deriving DecidableEq, Repr

/-- Models `mut_::Stride` (src/mut_.rs). -/
structure MutStride where
  base : Stride
  deriving DecidableEq, Repr

/-- Models `impl Deref for mut_::Stride` (src/mut_.rs:202-207): the `repr(C)`
transmute, i.e. the same `base` triple viewed as the shared wrapper. -/
def MutStride.deref (m : MutStride) : ImmStride := ⟨m.base⟩

/-- Models `imm::Stride::len`. -/
def ImmStride.len (v : ImmStride) : Nat := v.base.len

/-- Models `imm::Stride::stride`: `base.stride() / mem::size_of::<T>()`, the
stride in element units. -/
def ImmStride.strideElems (sz : Nat) (v : ImmStride) : Nat := v.base.stride / sz

/-- Models `imm::Stride::get`. -/
def ImmStride.get (v : ImmStride) (n : Nat) : Option Nat := v.base.get n

/-- Models `imm::Stride::iter`. -/
def ImmStride.iter (v : ImmStride) : Except String Items := v.base.iter

/-- Models `impl Index for imm::Stride`. -/
def ImmStride.index (v : ImmStride) (n : Nat) : Except String Nat := v.base.index n

/-- Models `imm::Stride::slice`. -/
def ImmStride.slice (sz : Nat) (v : ImmStride) (fr hi : Nat) : Except String ImmStride :=
  (Stride.slice sz v.base fr hi).map ImmStride.mk

/-- Models `imm::Stride::slice_from`. -/
def ImmStride.slice_from (sz : Nat) (v : ImmStride) (fr : Nat) : Except String ImmStride :=
  (Stride.slice_from sz v.base fr).map ImmStride.mk

/-- Models `imm::Stride::slice_to`. -/
def ImmStride.slice_to (sz : Nat) (v : ImmStride) (hi : Nat) : Except String ImmStride :=
  (Stride.slice_to sz v.base hi).map ImmStride.mk

/-- Models `imm::Stride::split_at`. -/
def ImmStride.split_at (sz : Nat) (v : ImmStride) (idx : Nat) :
    Except String (ImmStride × ImmStride) :=
  (Stride.split_at sz v.base idx).map (fun p => (ImmStride.mk p.1, ImmStride.mk p.2))

/-- Models `imm::Stride::substrides2`. -/
def ImmStride.substrides2 (sz : Nat) (v : ImmStride) :
    Except String (ImmStride × ImmStride) :=
  (Stride.substrides2 sz v.base).map (fun p => (ImmStride.mk p.1, ImmStride.mk p.2))

/-- Models `imm::Stride::substrides` (the `imm::Substrides` wrapper adds nothing
to the base partitioner state, so the base state is returned). -/
def ImmStride.substrides (sz : Nat) (v : ImmStride) (n : Nat) : Except String Substrides :=
  Stride.substrides sz v.base n

/-- Models `impl PartialEq for imm::Stride` (derived: compares the `base` field). -/
def ImmStride.eqImpl {α : Type} (mem : Nat → α) (beq : α → α → Bool)
    (a b : ImmStride) : Bool :=
  Stride.eqImpl mem beq a.base b.base

/-- Models `impl Ord for imm::Stride` (derived). -/
def ImmStride.cmpImpl {α : Type} (mem : Nat → α) (c : α → α → Ordering)
    (a b : ImmStride) : Ordering :=
  Stride.cmpImpl mem c a.base b.base

/-- Models `impl Debug for imm::Stride` (src/imm.rs:16-20: delegates to the base
formatter). -/
def ImmStride.fmtImpl {α : Type} (mem : Nat → α) (render : α → String)
    (v : ImmStride) : String :=
  Stride.fmtImpl mem render v.base

/-- Models `mut_::Stride::len` (src/mut_.rs:56-58). -/
def MutStride.len (m : MutStride) : Nat := m.base.len

/-- Models `mut_::Stride::stride` (src/mut_.rs:62-64). -/
def MutStride.strideElems (sz : Nat) (m : MutStride) : Nat := m.base.stride / sz

/-- Models `mut_::Stride::get_mut` (src/mut_.rs:120-122). -/
def MutStride.get_mut (m : MutStride) (n : Nat) : Option Nat := m.base.get_mut n

/-- Models `mut_::Stride::reborrow` (src/mut_.rs:84-86): a new handle over the
same triple. -/
def MutStride.reborrow (m : MutStride) : MutStride := ⟨m.base⟩

/-- Models `mut_::Stride::into_iter` (src/mut_.rs:140-142): `base.iter_mut()`,
the same iterator state as `iter`. -/
def MutStride.into_iter (m : MutStride) : Except String Items := m.base.iter

/-- C10: every read-only operation reached through the mutable wrapper's
dereference gives exactly the result of the same operation on a shared
view constructed over the same base/length/stride triple, and the mutable
wrapper's own read-only entry points (`len`, `stride`, `get_mut` as a
read, `into_iter`, reborrowing) agree with it as well. -/
theorem deref_read_equiv {α : Type} (m m' : MutStride) (sz n fr hi idx : Nat)
    (mem : Nat → α) (beq : α → α → Bool) (c : α → α → Ordering) (render : α → String) :
    m.deref = ImmStride.mk m.base
    ∧ (m.deref).len = ImmStride.len (ImmStride.mk m.base)
    ∧ (m.deref).strideElems sz = ImmStride.strideElems sz (ImmStride.mk m.base)
    ∧ (m.deref).get n = ImmStride.get (ImmStride.mk m.base) n
    ∧ (m.deref).iter = ImmStride.iter (ImmStride.mk m.base)
    ∧ (m.deref).index n = ImmStride.index (ImmStride.mk m.base) n
    ∧ (m.deref).slice sz fr hi = ImmStride.slice sz (ImmStride.mk m.base) fr hi
    ∧ (m.deref).slice_from sz fr = ImmStride.slice_from sz (ImmStride.mk m.base) fr
    ∧ (m.deref).slice_to sz hi = ImmStride.slice_to sz (ImmStride.mk m.base) hi
    ∧ (m.deref).split_at sz idx = ImmStride.split_at sz (ImmStride.mk m.base) idx
    ∧ (m.deref).substrides2 sz = ImmStride.substrides2 sz (ImmStride.mk m.base)
    ∧ (m.deref).substrides sz n = ImmStride.substrides sz (ImmStride.mk m.base) n
    ∧ ImmStride.eqImpl mem beq m.deref m'.deref
        = ImmStride.eqImpl mem beq (ImmStride.mk m.base) (ImmStride.mk m'.base)
    ∧ ImmStride.cmpImpl mem c m.deref m'.deref
        = ImmStride.cmpImpl mem c (ImmStride.mk m.base) (ImmStride.mk m'.base)
    ∧ ImmStride.fmtImpl mem render m.deref = ImmStride.fmtImpl mem render (ImmStride.mk m.base)
    ∧ MutStride.len m = (m.deref).len
    ∧ MutStride.strideElems sz m = (m.deref).strideElems sz
    ∧ MutStride.get_mut m n = (m.deref).get n
    ∧ MutStride.into_iter m = (m.deref).iter
    ∧ (m.reborrow).deref = m.deref :=
  ⟨rfl, rfl, rfl, rfl, rfl, rfl, rfl, rfl, rfl, rfl,
   rfl, rfl, rfl, rfl, rfl, rfl, rfl, rfl, rfl, rfl⟩

end Strided
